import Mathlib

/-!
Verification of the file-disk overlay chunk store.

This file gives a shallow embedding of the chunk / chunk-store / read-plan
code of the repository (src/index.js promise-based variant together with
the DiskChunk module) and proves the specification claims about it.

Byte buffers are modelled as lists of natural numbers; backend hooks are
modelled as explicit functions returning `Except`; the asynchronous
executor (bluebird `Promise.each`, which awaits every iteration before
starting the next) is modelled as a sequential recursion that also
records a trace of backend events.
-/

/-- Bytes of a buffer, one natural number per byte. -/
abbrev Bytes := List Nat

/-- Model of the interval-intersection npm package used by the source:
intersection of two closed intervals, `none` when they do not meet. -/
def iisect (a b : Nat × Nat) : Option (Nat × Nat) :=
  if max a.1 b.1 ≤ min a.2 b.2 then some (max a.1 b.1, min a.2 b.2) else none

/-- DiskChunk with its two subclasses: `BufferDiskChunk buffer offset`
(a chunk backed by a byte buffer, `start = offset`,
`end = offset + buffer.length - 1`) and `DiscardDiskChunk offset length`
(an interval of implicit zeros, `start = offset`, `end = offset + length - 1`). -/
inductive DiskChunk : Type where
  | bufferChunk (buffer : Bytes) (offset : Nat) : DiskChunk
  | discardChunk (offset length : Nat) : DiskChunk
  deriving DecidableEq, Repr

/-- The `start` property: position of the first byte. -/
def DiskChunk.start : DiskChunk → Nat
  | .bufferChunk _ o => o
  | .discardChunk o _ => o

/-- The `end` property: position of the last byte (inclusive). `end` is a
Lean keyword, hence `stop`. -/
def DiskChunk.stop : DiskChunk → Nat
  | .bufferChunk b o => o + b.length - 1
  | .discardChunk o l => o + l - 1

/-- The `interval()` method. -/
def DiskChunk.interval (c : DiskChunk) : Nat × Nat := (c.start, c.stop)

/-- The `intersection(other)` method. -/
def DiskChunk.intersection (c other : DiskChunk) : Option (Nat × Nat) :=
  iisect c.interval other.interval

/-- The `intersects(other)` method. -/
def DiskChunk.intersects (c other : DiskChunk) : Bool :=
  (c.intersection other).isSome

/-- The `includedIn(other)` method: `this.start >= other.start && this.end <= other.end`. -/
def DiskChunk.includedIn (c other : DiskChunk) : Bool :=
  decide (other.start ≤ c.start) && decide (c.stop ≤ other.stop)

/-- The `slice(start, end)` method (`start`, `end` absolute disk offsets,
both included). A buffer chunk slices its buffer; a discard chunk narrows
its interval. -/
def DiskChunk.slice (c : DiskChunk) (a b : Nat) : DiskChunk :=
  match c with
  | .bufferChunk buf o => .bufferChunk ((buf.drop (a - o)).take (b - a + 1)) a
  | .discardChunk _ _ => .discardChunk a (b - a + 1)

/-- The `data()` method: owned buffer for a buffer chunk, freshly
synthesized zeros of length `end - start + 1` for a discard chunk. -/
def DiskChunk.data : DiskChunk → Bytes
  | .bufferChunk buf _ => buf
  | .discardChunk o l => List.replicate ((o + l - 1) - o + 1) 0

/-- The `cut(other)` method: the 0-2 parts of `c` strictly outside
`other`'s interval, each produced via `slice`. Contract: `other`
overlaps `c` (the JS code dereferences the intersection unconditionally;
the `none` branch below is never exercised under that contract). -/
def DiskChunk.cut (c other : DiskChunk) : List DiskChunk :=
  match c.intersection other with
  | none => []
  | some (lo, hi) =>
      (if c.start < lo then [c.slice c.start (lo - 1)] else []) ++
      (if hi < c.stop then [c.slice (hi + 1) c.stop] else [])

/-- Discriminates the `DiscardDiskChunk` subclass (`instanceof` checks in
the source). -/
def DiskChunk.isDiscard : DiskChunk → Bool
  | .discardChunk _ _ => true
  | .bufferChunk _ _ => false

/-- Well-formedness of a chunk: its interval is non-empty, which for a
buffer chunk means a non-empty buffer (the documented invariant is that
the buffer length equals `end - start + 1`) and for a discard chunk a
non-zero length. In JS integers this is exactly `start <= end`. -/
def DiskChunk.wf : DiskChunk → Bool
  | .bufferChunk buf _ => buf.length != 0
  | .discardChunk _ l => l != 0

/-- Store order relation: the left chunk ends strictly before the right
chunk starts. -/
def chunkGap (a b : DiskChunk) : Prop := a.stop < b.start

instance : DecidableRel chunkGap := fun a b => Nat.decLt a.stop b.start

/-- The chunk-store invariant of `knownChunks`: all chunks well-formed,
sorted ascending by `start` and pairwise non-overlapping (consecutive
chunks are separated: each ends strictly before the next starts). -/
def storeInv (l : List DiskChunk) : Prop :=
  (∀ c ∈ l, c.wf = true) ∧ List.Pairwise chunkGap l

instance (l : List DiskChunk) : Decidable (storeInv l) := by
  unfold storeInv; infer_instance

/-- The Disk state: policy flags, the sorted overlay chunk store and the
memoized capacity. -/
structure Disk where
  readOnly : Bool
  recordWrites : Bool
  recordReads : Bool
  discardIsZero : Bool
  knownChunks : List DiskChunk
  capacity : Option Nat
  deriving DecidableEq, Repr

/-- The scan loop of `Disk._insertDiskChunk`: walks the store left to
right keeping track of the insertion index `insertAt`; deletes entries
included in the incoming chunk, replaces partially overlapping entries
by their `cut` remainders, and stops as soon as an entry starts after
the incoming chunk ends. Arguments: remaining store entries, absolute
index `i` of the first of them, current `insertAt`. Returns the
transformed remainder and the final `insertAt`. -/
def insertDiskChunkLoop (chunk : DiskChunk) :
    List DiskChunk → Nat → Nat → List DiskChunk × Nat
  | [], _, insertAt => ([], insertAt)
  | other :: rest, i, insertAt =>
    if chunk.stop < other.start then (other :: rest, insertAt)
    else
      let insertAt' := if other.start < chunk.start then i + 1 else i
      if chunk.intersects other then
        if other.includedIn chunk then
          insertDiskChunkLoop chunk rest i insertAt'
        else
          let newChunks := other.cut chunk
          let r := insertDiskChunkLoop chunk rest (i + newChunks.length) insertAt'
          (newChunks ++ r.1, r.2)
      else
        let r := insertDiskChunkLoop chunk rest (i + 1) insertAt'
        (other :: r.1, r.2)

/-- JS `array.splice(n, 0, c)`: insert `c` at index `n` (clamped to the
array length). -/
def spliceInsert (l : List DiskChunk) (n : Nat) (c : DiskChunk) : List DiskChunk :=
  l.take n ++ c :: l.drop n

/-- `Disk._insertDiskChunk(chunk, insert)`: clip every stored chunk
overlapping `chunk`, then (when `insert` is true) insert `chunk` itself
at the tracked position. -/
def Disk._insertDiskChunk (d : Disk) (chunk : DiskChunk) (insert : Bool) : Disk :=
  let r := insertDiskChunkLoop chunk d.knownChunks 0 0
  if insert then { d with knownChunks := spliceInsert r.1 r.2 chunk }
  else { d with knownChunks := r.1 }

/-- Store effect of `Disk.write(buffer, bufferOffset, length, fileOffset)`:
with record-writes a buffer chunk holding the written bytes is inserted;
without it a synthetic discard-shaped probe is used with `insert=false`
so overlapping discard records still get clipped. (The backend write of
the same bytes does not touch the chunk store.) -/
def Disk.write (d : Disk) (buffer : Bytes) (bufferOffset length fileOffset : Nat) : Disk :=
  if d.recordWrites then
    d._insertDiskChunk (.bufferChunk ((buffer.drop bufferOffset).take length) fileOffset) true
  else
    d._insertDiskChunk (.discardChunk fileOffset length) false

/-- `Disk.discard(offset, length)`: inserts a discard chunk; never
touches the backend. -/
def Disk.discard (d : Disk) (offset length : Nat) : Disk :=
  d._insertDiskChunk (.discardChunk offset length) true

/-- A read-plan entry: either a chunk whose data is already known, or a
raw closed interval to be fetched from the backend. -/
inductive ReadPlanEntry : Type where
  | fromChunk (c : DiskChunk) : ReadPlanEntry
  | fromDisk (start stop : Nat) : ReadPlanEntry
  deriving DecidableEq, Repr

/-- The plan-building loop of `Disk._createReadPlan`: walk the sliced
intersections in order, emit a raw entry for every gap before a chunk,
then the chunk itself; after the last chunk emit a raw entry for the
remainder up to `stop` if any. -/
def readPlanLoop (stop : Nat) : Nat → List DiskChunk → List ReadPlanEntry
  | offset, [] => if offset ≤ stop then [.fromDisk offset stop] else []
  | offset, c :: cs =>
      (if offset < c.start then [.fromDisk offset (c.start - 1)] else []) ++
      .fromChunk c :: readPlanLoop stop (c.stop + 1) cs

/-- The `intersections` computation of `Disk._createReadPlan`: map every
chunk meeting the request `[offset, stop]` to its slice over exactly the
intersection, dropping the misses (`map` followed by a null filter in
the source). -/
def planIntersections (chunks : List DiskChunk) (offset stop : Nat) : List DiskChunk :=
  chunks.filterMap (fun c =>
    match iisect (offset, stop) c.interval with
    | some (lo, hi) => some (c.slice lo hi)
    | none => none)

/-- `Disk._createReadPlan(offset, length)`: discard chunks are excluded
when `discardIsZero` is disabled; every stored chunk meeting the request
contributes its slice over exactly the intersection; a request meeting
no chunk is a single raw read. -/
def Disk._createReadPlan (d : Disk) (offset length : Nat) : List ReadPlanEntry :=
  let stop := offset + length - 1
  let chunks := if d.discardIsZero then d.knownChunks
    else d.knownChunks.filter (fun c => !c.isDiscard)
  let intersections := planIntersections chunks offset stop
  if intersections.isEmpty then [.fromDisk offset stop]
  else readPlanLoop stop offset intersections

/-- Events of the read executor: a backend read being issued, a backend
read having completed, a chunk copy. -/
inductive TraceEv : Type where
  | readStart (start stop : Nat) : TraceEv
  | readDone (start stop : Nat) : TraceEv
  | copyChunk (c : DiskChunk) : TraceEv
  deriving DecidableEq, Repr

/-- JS `src.copy(dst, offset)` for byte buffers: overwrite `dst` from
position `offset` on with the bytes of `src`, clamped at the end of
`dst` (`dst` never grows). -/
def blit (dst : Bytes) (offset : Nat) (src : Bytes) : Bytes :=
  dst.take offset ++ src.take (dst.length - offset) ++ dst.drop (offset + src.length)

/-- The loop body of `Disk._readAccordingToPlan` (promise variant,
`Promise.each` awaits each entry before starting the next). A chunk
entry copies `min(data.length, buffer.length - offset)` bytes of the
chunk's data into the buffer; a raw entry asks the backend for the bytes
(recording them as a fresh buffer chunk when record-reads is on) and
aborts the whole run with the backend's error value on failure. Returns
the event trace together with either the error or the final
`(offset, buffer, disk)`. -/
def readPlanGo {E : Type} (bknd : Nat → Nat → Except E Bytes) :
    Disk → Bytes → Nat → List ReadPlanEntry → List TraceEv × Except E (Nat × Bytes × Disk)
  | d, buf, offset, [] => ([], .ok (offset, buf, d))
  | d, buf, offset, .fromChunk c :: rest =>
      let length := min c.data.length (buf.length - offset)
      let r := readPlanGo bknd d (blit buf offset (c.data.take length)) (offset + length) rest
      (TraceEv.copyChunk c :: r.1, r.2)
  | d, buf, offset, .fromDisk a b :: rest =>
      let length := b - a + 1
      match bknd a length with
      | .error e => ([TraceEv.readStart a b], .error e)
      | .ok bytes =>
          let buf' := blit buf offset bytes
          let d' := if d.recordReads
            then d._insertDiskChunk (.bufferChunk ((buf'.drop offset).take length) a) true
            else d
          let r := readPlanGo bknd d' buf' (offset + length) rest
          (TraceEv.readStart a b :: TraceEv.readDone a b :: r.1, r.2)

/-- `Disk._readAccordingToPlan(buffer, plan)` with an explicit backend. -/
def Disk._readAccordingToPlan {E : Type} (d : Disk) (bknd : Nat → Nat → Except E Bytes)
    (buffer : Bytes) (plan : List ReadPlanEntry) :
    List TraceEv × Except E (Nat × Bytes × Disk) :=
  readPlanGo bknd d buffer 0 plan

/-- `Disk.read(buffer, bufferOffset, length, fileOffset)`: plan, then
execute (the source ignores `bufferOffset`; the plan always assembles
from position 0 of the destination buffer). -/
def Disk.read {E : Type} (d : Disk) (bknd : Nat → Nat → Except E Bytes)
    (buffer : Bytes) (length fileOffset : Nat) :
    List TraceEv × Except E (Nat × Bytes × Disk) :=
  d._readAccordingToPlan bknd buffer (d._createReadPlan fileOffset length)

/-- `Disk.getCapacity()` with an explicit backend hook result: returns
the memoized value when present, otherwise consults the hook, caching
only a success. The boolean records whether the hook was invoked. -/
def Disk.getCapacity {E : Type} (d : Disk) (hook : Except E Nat) :
    Except E Nat × Disk × Bool :=
  match d.capacity with
  | some c => (.ok c, d, false)
  | none =>
    match hook with
    | .error e => (.error e, d, true)
    | .ok c => (.ok c, { d with capacity := some c }, true)

/-- A sequence of `getCapacity` calls, each with its own backend hook
result; yields each call's result and invocation flag, plus the final
disk. -/
def runGetCapacities {E : Type} (d : Disk) :
    List (Except E Nat) → List (Except E Nat × Bool) × Disk
  | [] => ([], d)
  | h :: hs =>
    let r := d.getCapacity h
    let rest := runGetCapacities r.2.1 hs
    ((r.1, r.2.2) :: rest.1, rest.2)

/-- First covered position of a plan entry. -/
def entryStart : ReadPlanEntry → Nat
  | .fromChunk c => c.start
  | .fromDisk a _ => a

/-- Last covered position of a plan entry. -/
def entryStop : ReadPlanEntry → Nat
  | .fromChunk c => c.stop
  | .fromDisk _ b => b

/-- Number of bytes covered by a plan entry. -/
def entryLength (e : ReadPlanEntry) : Nat := entryStop e - entryStart e + 1

/-- Total number of bytes covered by a plan. -/
def planLength (p : List ReadPlanEntry) : Nat := (p.map entryLength).sum

/-- `coversB lo hi p`: the entry intervals of `p` tile the closed
interval `[lo, hi]` exactly: each entry is non-empty, starts where the
previous one stopped plus one (the first at `lo`), and the last stops at
`hi`. This packages contiguity, absence of overlap, ascending order and
exact coverage. -/
def coversB : Nat → Nat → List ReadPlanEntry → Bool
  | lo, hi, [] => lo == hi + 1
  | lo, hi, e :: es =>
      (entryStart e == lo) && decide (lo ≤ entryStop e) && decide (entryStop e ≤ hi) &&
      coversB (entryStop e + 1) hi es

/-- Packaged post-conditions of one run of the insertion scan loop on a
well-formed suffix of the store, relative to the incoming `chunk`, the
absolute index `i` of the first suffix entry and the incoming `insertAt`
value `ia₀`. The surviving entries are well-formed, still sorted with
gaps, all disjoint from `chunk`, each of the same variant as some
original entry, and bounded below like the input; the final `insertAt`
either was never updated (then every entry lies after `chunk`) or splits
the result into entries entirely before and entirely after `chunk`. -/
def InsertLoopOut (chunk : DiskChunk) (l : List DiskChunk) (i ia₀ : Nat)
    (r : List DiskChunk × Nat) : Prop :=
  (∀ c ∈ r.1, c.wf = true) ∧
  List.Pairwise chunkGap r.1 ∧
  (∀ c ∈ r.1, c.stop < chunk.start ∨ chunk.stop < c.start) ∧
  (∀ c ∈ r.1, ∃ c₀ ∈ l, c.isDiscard = c₀.isDiscard) ∧
  (∀ m, (∀ c ∈ l, m ≤ c.start) → m ≤ chunk.start → ∀ c ∈ r.1, m ≤ c.start) ∧
  ((r.2 = ia₀ ∧ r.1 = l ∧ ∀ c ∈ l, chunk.stop < c.start) ∨
   (i ≤ r.2 ∧ r.2 - i ≤ r.1.length ∧
    (∀ c ∈ r.1.take (r.2 - i), c.stop < chunk.start) ∧
    (∀ c ∈ r.1.drop (r.2 - i), chunk.stop < c.start)))

/-- Discriminates backend-read issue events. -/
def TraceEv.isStart : TraceEv → Bool
  | .readStart _ _ => true
  | .readDone _ _ => false
  | .copyChunk _ => false

/-- Discriminates backend-read completion events. -/
def TraceEv.isDone : TraceEv → Bool
  | .readDone _ _ => true
  | .readStart _ _ => false
  | .copyChunk _ => false

/-- The fully sequential trace of a plan: chunk copies as they appear
and, for each raw entry, an adjacent issue/completion pair. -/
def planTrace : List ReadPlanEntry → List TraceEv
  | [] => []
  | .fromChunk c :: rest => TraceEv.copyChunk c :: planTrace rest
  | .fromDisk a b :: rest =>
      TraceEv.readStart a b :: TraceEv.readDone a b :: planTrace rest

/-- Traces in which backend reads never overlap: a sequence of chunk
copies and adjacent issue/completion pairs, possibly ending in a single
dangling issue (a read whose failure aborted the run). -/
inductive SeqTrace : List TraceEv → Prop where
  | nil : SeqTrace []
  | dangling (a b : Nat) : SeqTrace [TraceEv.readStart a b]
  | copy (c : DiskChunk) (t : List TraceEv) :
      SeqTrace t → SeqTrace (TraceEv.copyChunk c :: t)
  | pair (a b : Nat) (t : List TraceEv) :
      SeqTrace t → SeqTrace (TraceEv.readStart a b :: TraceEv.readDone a b :: t)

/-! Basic facts about chunks. -/

theorem DiskChunk.start_le_stop {c : DiskChunk} (h : c.wf = true) : c.start ≤ c.stop := by
  cases c with
  | bufferChunk buf o =>
      simp [DiskChunk.wf, bne_iff_ne] at h
      have hl : 0 < buf.length := List.length_pos.mpr h
      simp [DiskChunk.start, DiskChunk.stop]
      omega
  | discardChunk o l =>
      simp [DiskChunk.wf, bne_iff_ne] at h
      simp [DiskChunk.start, DiskChunk.stop]
      omega

theorem DiskChunk.intersects_iff {c o : DiskChunk} :
    c.intersects o = true ↔ max c.start o.start ≤ min c.stop o.stop := by
  unfold DiskChunk.intersects DiskChunk.intersection DiskChunk.interval iisect
  split <;> simp_all

theorem DiskChunk.includedIn_iff {c o : DiskChunk} :
    c.includedIn o = true ↔ o.start ≤ c.start ∧ c.stop ≤ o.stop := by
  simp [DiskChunk.includedIn]

theorem DiskChunk.slice_start (c : DiskChunk) (a b : Nat) : (c.slice a b).start = a := by
  cases c <;> rfl

theorem DiskChunk.slice_isDiscard (c : DiskChunk) (a b : Nat) :
    (c.slice a b).isDiscard = c.isDiscard := by
  cases c <;> rfl

theorem DiskChunk.slice_stop {c : DiskChunk} {a b : Nat} (hwf : c.wf = true)
    (h1 : c.start ≤ a) (h2 : a ≤ b) (h3 : b ≤ c.stop) : (c.slice a b).stop = b := by
  cases c with
  | bufferChunk buf o =>
      simp [DiskChunk.wf, bne_iff_ne] at hwf
      have hl : 0 < buf.length := List.length_pos.mpr hwf
      simp [DiskChunk.start] at h1
      simp [DiskChunk.stop] at h3
      simp [DiskChunk.slice, DiskChunk.stop]
      omega
  | discardChunk o l =>
      simp [DiskChunk.start] at h1
      simp [DiskChunk.stop] at h3
      simp [DiskChunk.slice, DiskChunk.stop]
      omega

theorem DiskChunk.slice_wf {c : DiskChunk} {a b : Nat} (hwf : c.wf = true)
    (h1 : c.start ≤ a) (h2 : a ≤ b) (h3 : b ≤ c.stop) : (c.slice a b).wf = true := by
  cases c with
  | bufferChunk buf o =>
      simp [DiskChunk.wf, bne_iff_ne] at hwf
      have hl : 0 < buf.length := List.length_pos.mpr hwf
      simp [DiskChunk.start] at h1
      simp [DiskChunk.stop] at h3
      simp [DiskChunk.slice, DiskChunk.wf, bne_iff_ne]
      omega
  | discardChunk o l =>
      simp [DiskChunk.slice, DiskChunk.wf, bne_iff_ne]

theorem DiskChunk.data_length {c : DiskChunk} (hwf : c.wf = true) :
    c.data.length = c.stop - c.start + 1 := by
  cases c with
  | bufferChunk buf o =>
      simp [DiskChunk.wf, bne_iff_ne] at hwf
      have hl : 0 < buf.length := List.length_pos.mpr hwf
      simp [DiskChunk.data, DiskChunk.stop, DiskChunk.start]
      omega
  | discardChunk o l => simp [DiskChunk.data, DiskChunk.stop, DiskChunk.start]

theorem DiskChunk.cut_eq {c other : DiskChunk} (h : c.intersects other = true) :
    c.cut other =
      (if c.start < other.start then [c.slice c.start (other.start - 1)] else []) ++
      (if other.stop < c.stop then [c.slice (other.stop + 1) c.stop] else []) := by
  have hm : max c.start other.start ≤ min c.stop other.stop := DiskChunk.intersects_iff.mp h
  have hint : c.intersection other =
      some (max c.start other.start, min c.stop other.stop) := by
    unfold DiskChunk.intersection DiskChunk.interval iisect
    simp [hm]
  unfold DiskChunk.cut
  rw [hint]
  by_cases hA : c.start < other.start
  · have hmax : max c.start other.start = other.start := by omega
    by_cases hB : other.stop < c.stop
    · have hmin : min c.stop other.stop = other.stop := by omega
      rw [hmax, hmin]
    · have hmin : min c.stop other.stop = c.stop := by omega
      rw [hmax, hmin]
      simp [hB]
  · have hmax : max c.start other.start = c.start := by omega
    by_cases hB : other.stop < c.stop
    · have hmin : min c.stop other.stop = other.stop := by omega
      rw [hmax, hmin]
      simp [hA]
    · have hmin : min c.stop other.stop = c.stop := by omega
      rw [hmax, hmin]
      simp [hA, hB]

/-! Step equations of the insertion scan loop. -/

theorem insertLoop_nil (chunk : DiskChunk) (i ia₀ : Nat) :
    insertDiskChunkLoop chunk [] i ia₀ = ([], ia₀) := rfl

theorem insertLoop_stopped {chunk other : DiskChunk} (rest : List DiskChunk) (i ia₀ : Nat)
    (h : chunk.stop < other.start) :
    insertDiskChunkLoop chunk (other :: rest) i ia₀ = (other :: rest, ia₀) := by
  simp [insertDiskChunkLoop, h]

theorem insertLoop_skip {chunk other : DiskChunk} (rest : List DiskChunk) (i ia₀ : Nat)
    (h1 : ¬ chunk.stop < other.start) (h2 : chunk.intersects other = false) :
    insertDiskChunkLoop chunk (other :: rest) i ia₀ =
      (other ::
        (insertDiskChunkLoop chunk rest (i + 1)
          (if other.start < chunk.start then i + 1 else i)).1,
       (insertDiskChunkLoop chunk rest (i + 1)
          (if other.start < chunk.start then i + 1 else i)).2) := by
  simp [insertDiskChunkLoop, h1, h2]

theorem insertLoop_delete {chunk other : DiskChunk} (rest : List DiskChunk) (i ia₀ : Nat)
    (h1 : ¬ chunk.stop < other.start) (h2 : chunk.intersects other = true)
    (h3 : other.includedIn chunk = true) :
    insertDiskChunkLoop chunk (other :: rest) i ia₀ =
      insertDiskChunkLoop chunk rest i (if other.start < chunk.start then i + 1 else i) := by
  simp [insertDiskChunkLoop, h1, h2, h3]

theorem insertLoop_cut {chunk other : DiskChunk} (rest : List DiskChunk) (i ia₀ : Nat)
    (h1 : ¬ chunk.stop < other.start) (h2 : chunk.intersects other = true)
    (h3 : other.includedIn chunk = false) :
    insertDiskChunkLoop chunk (other :: rest) i ia₀ =
      (other.cut chunk ++
        (insertDiskChunkLoop chunk rest (i + (other.cut chunk).length)
          (if other.start < chunk.start then i + 1 else i)).1,
       (insertDiskChunkLoop chunk rest (i + (other.cut chunk).length)
          (if other.start < chunk.start then i + 1 else i)).2) := by
  simp [insertDiskChunkLoop, h1, h2, h3]

theorem insertLoop_of_forall_gt {chunk : DiskChunk} (rest : List DiskChunk) (i ia₀ : Nat)
    (h : ∀ c ∈ rest, chunk.stop < c.start) :
    insertDiskChunkLoop chunk rest i ia₀ = (rest, ia₀) := by
  cases rest with
  | nil => rfl
  | cons hd tl => exact insertLoop_stopped tl i ia₀ (h hd (List.mem_cons_self hd tl))

/-- Loop outcome when every entry of the suffix lies after the chunk. -/
theorem insertLoopOut_after {chunk : DiskChunk} (l : List DiskChunk) (i ia₀ : Nat)
    (hl : ∀ c ∈ l, c.wf = true) (hp : List.Pairwise chunkGap l)
    (hgt : ∀ c ∈ l, chunk.stop < c.start) :
    InsertLoopOut chunk l i ia₀ (l, ia₀) := by
  refine ⟨hl, hp, fun c hc => Or.inr (hgt c hc), fun c hc => ⟨c, hc, rfl⟩,
    fun m hm _ c hc => hm c hc, Or.inl ⟨rfl, rfl, hgt⟩⟩

/-- Lifting a loop outcome over a kept or cut-off head entry `c₁` that
lies entirely before the chunk. -/
theorem insertLoopOut_cons_lift {chunk other c₁ : DiskChunk} {rest : List DiskChunk}
    {i ia₀ : Nat} {R : List DiskChunk × Nat}
    (h1w : c₁.wf = true) (h1s : c₁.start = other.start) (h1t : c₁.stop < chunk.start)
    (h1gap : ∀ c ∈ R.1, c₁.stop < c.start)
    (h1d : ∃ c₀ ∈ other :: rest, c₁.isDiscard = c₀.isDiscard)
    (ih : InsertLoopOut chunk rest (i + 1) (i + 1) R) :
    InsertLoopOut chunk (other :: rest) i ia₀ (c₁ :: R.1, R.2) := by
  obtain ⟨ih1, ih2, ih3, ih4, ih5, ih6⟩ := ih
  refine ⟨?_, ?_, ?_, ?_, ?_, ?_⟩
  · intro c hc
    rcases List.mem_cons.mp hc with rfl | hc
    · exact h1w
    · exact ih1 c hc
  · exact List.pairwise_cons.mpr ⟨h1gap, ih2⟩
  · intro c hc
    rcases List.mem_cons.mp hc with rfl | hc
    · exact Or.inl h1t
    · exact ih3 c hc
  · intro c hc
    rcases List.mem_cons.mp hc with rfl | hc
    · exact h1d
    · obtain ⟨c₀, hc₀, he⟩ := ih4 c hc
      exact ⟨c₀, List.mem_cons_of_mem _ hc₀, he⟩
  · intro m hm hmc c hc
    rcases List.mem_cons.mp hc with rfl | hc
    · exact h1s ▸ hm other (List.mem_cons_self _ _)
    · exact ih5 m (fun c hc => hm c (List.mem_cons_of_mem _ hc)) hmc c hc
  · rcases ih6 with ⟨e1, e2, e3⟩ | ⟨g1, g2, g3, g4⟩
    · refine Or.inr ⟨by omega, by simp; omega, ?_, ?_⟩
      · have h21 : R.2 - i = 1 := by omega
        rw [h21]
        intro c hc
        simp at hc
        exact hc ▸ h1t
      · have h21 : R.2 - i = 1 := by omega
        rw [h21, List.drop_succ_cons, List.drop_zero]
        exact e2 ▸ e3
    · have h2i : R.2 - i = (R.2 - (i + 1)) + 1 := by omega
      refine Or.inr ⟨by omega, ?_, ?_, ?_⟩
      · simp
        omega
      · rw [h2i, List.take_succ_cons]
        intro c hc
        rcases List.mem_cons.mp hc with rfl | hc
        · exact h1t
        · exact g3 c hc
      · rw [h2i, List.drop_succ_cons]
        exact g4

/-- Lifting a loop outcome over a deleted head entry (the head was
included in the chunk, so the sub-run already starts at index `i`). -/
theorem insertLoopOut_delete_lift {chunk other : DiskChunk} {rest : List DiskChunk}
    {i ia₀ : Nat} {R : List DiskChunk × Nat}
    (ih : InsertLoopOut chunk rest i i R) :
    InsertLoopOut chunk (other :: rest) i ia₀ R := by
  obtain ⟨ih1, ih2, ih3, ih4, ih5, ih6⟩ := ih
  refine ⟨ih1, ih2, ih3, ?_, ?_, ?_⟩
  · intro c hc
    obtain ⟨c₀, hc₀, he⟩ := ih4 c hc
    exact ⟨c₀, List.mem_cons_of_mem _ hc₀, he⟩
  · intro m hm hmc c hc
    exact ih5 m (fun c hc => hm c (List.mem_cons_of_mem _ hc)) hmc c hc
  · rcases ih6 with ⟨e1, e2, e3⟩ | ⟨g1, g2, g3, g4⟩
    · refine Or.inr ⟨by omega, by omega, ?_, ?_⟩
      · have h20 : R.2 - i = 0 := by omega
        rw [h20]
        simp
      · have h20 : R.2 - i = 0 := by omega
        rw [h20, List.drop_zero]
        exact e2 ▸ e3
    · exact Or.inr ⟨g1, g2, g3, g4⟩

/-- Loop outcome for a head entry cut into a single right remainder `c₂`
(every later entry lies after the chunk, so the scan stops right away). -/
theorem insertLoopOut_one {chunk other c₂ : DiskChunk} {rest : List DiskChunk}
    {i ia₀ : Nat}
    (hcss : chunk.start ≤ chunk.stop)
    (hrwf : ∀ c ∈ rest, c.wf = true) (hrp : List.Pairwise chunkGap rest)
    (hgap : ∀ c ∈ rest, other.stop < c.start)
    (h2w : c₂.wf = true) (h2s : c₂.start = chunk.stop + 1) (h2t : c₂.stop = other.stop)
    (h2d : c₂.isDiscard = other.isDiscard)
    (hrest_gt : ∀ c ∈ rest, chunk.stop < c.start) :
    InsertLoopOut chunk (other :: rest) i ia₀ (c₂ :: rest, i) := by
  refine ⟨?_, ?_, ?_, ?_, ?_, ?_⟩
  · intro c hc
    rcases List.mem_cons.mp hc with rfl | hc
    · exact h2w
    · exact hrwf c hc
  · refine List.pairwise_cons.mpr ⟨?_, hrp⟩
    intro c hc
    have := hgap c hc
    show c₂.stop < c.start
    omega
  · intro c hc
    rcases List.mem_cons.mp hc with rfl | hc
    · exact Or.inr (by omega)
    · exact Or.inr (hrest_gt c hc)
  · intro c hc
    rcases List.mem_cons.mp hc with rfl | hc
    · exact ⟨other, List.mem_cons_self _ _, h2d⟩
    · exact ⟨c, List.mem_cons_of_mem _ hc, rfl⟩
  · intro m hm hmc c hc
    rcases List.mem_cons.mp hc with rfl | hc
    · omega
    · exact hm c (List.mem_cons_of_mem _ hc)
  · refine Or.inr ⟨by omega, by omega, ?_, ?_⟩
    · have h20 : i - i = 0 := by omega
      rw [h20]
      simp
    · have h20 : i - i = 0 := by omega
      rw [h20, List.drop_zero]
      intro c hc
      rcases List.mem_cons.mp hc with rfl | hc
      · omega
      · exact hrest_gt c hc

/-- Loop outcome for a head entry cut into a left remainder `c₁` and a
right remainder `c₂` (again every later entry lies after the chunk). -/
theorem insertLoopOut_two {chunk other c₁ c₂ : DiskChunk} {rest : List DiskChunk}
    {i ia₀ : Nat}
    (hcss : chunk.start ≤ chunk.stop)
    (hrwf : ∀ c ∈ rest, c.wf = true) (hrp : List.Pairwise chunkGap rest)
    (hgap : ∀ c ∈ rest, other.stop < c.start)
    (h1w : c₁.wf = true) (h1s : c₁.start = other.start) (h1t : c₁.stop = chunk.start - 1)
    (h1d : c₁.isDiscard = other.isDiscard)
    (h2w : c₂.wf = true) (h2s : c₂.start = chunk.stop + 1) (h2t : c₂.stop = other.stop)
    (h2d : c₂.isDiscard = other.isDiscard)
    (hA : other.start < chunk.start)
    (hrest_gt : ∀ c ∈ rest, chunk.stop < c.start) :
    InsertLoopOut chunk (other :: rest) i ia₀ (c₁ :: c₂ :: rest, i + 1) := by
  refine ⟨?_, ?_, ?_, ?_, ?_, ?_⟩
  · intro c hc
    rcases List.mem_cons.mp hc with rfl | hc
    · exact h1w
    rcases List.mem_cons.mp hc with rfl | hc
    · exact h2w
    · exact hrwf c hc
  · refine List.pairwise_cons.mpr ⟨?_, List.pairwise_cons.mpr ⟨?_, hrp⟩⟩
    · intro c hc
      rcases List.mem_cons.mp hc with rfl | hc
      · unfold chunkGap
        omega
      · have := hrest_gt c hc
        unfold chunkGap
        omega
    · intro c hc
      have := hgap c hc
      unfold chunkGap
      omega
  · intro c hc
    rcases List.mem_cons.mp hc with rfl | hc
    · exact Or.inl (by omega)
    rcases List.mem_cons.mp hc with rfl | hc
    · exact Or.inr (by omega)
    · exact Or.inr (hrest_gt c hc)
  · intro c hc
    rcases List.mem_cons.mp hc with rfl | hc
    · exact ⟨other, List.mem_cons_self _ _, h1d⟩
    rcases List.mem_cons.mp hc with rfl | hc
    · exact ⟨other, List.mem_cons_self _ _, h2d⟩
    · exact ⟨c, List.mem_cons_of_mem _ hc, rfl⟩
  · intro m hm hmc c hc
    have hmo := hm other (List.mem_cons_self _ _)
    rcases List.mem_cons.mp hc with rfl | hc
    · omega
    rcases List.mem_cons.mp hc with rfl | hc
    · omega
    · exact hm c (List.mem_cons_of_mem _ hc)
  · refine Or.inr ⟨by omega, by simp, ?_, ?_⟩
    · have h21 : i + 1 - i = 1 := by omega
      rw [h21]
      intro c hc
      simp at hc
      subst hc
      omega
    · have h21 : i + 1 - i = 1 := by omega
      rw [h21, List.drop_succ_cons, List.drop_zero]
      intro c hc
      rcases List.mem_cons.mp hc with rfl | hc
      · omega
      · exact hrest_gt c hc

/-- Main invariant lemma of the insertion scan loop: on a well-formed
sorted store suffix it produces a well-formed sorted remainder disjoint
from the incoming chunk, split correctly by the final `insertAt`. -/
theorem insertLoop_spec {chunk : DiskChunk} (hwf : chunk.wf = true) :
    ∀ (l : List DiskChunk) (i ia₀ : Nat),
      (∀ c ∈ l, c.wf = true) → List.Pairwise chunkGap l →
      InsertLoopOut chunk l i ia₀ (insertDiskChunkLoop chunk l i ia₀) := by
  intro l
  induction l with
  | nil =>
      intro i ia₀ _ _
      rw [insertLoop_nil]
      exact insertLoopOut_after [] i ia₀ (by simp) (by simp) (by simp)
  | cons other rest IH =>
      intro i ia₀ hl hp
      have howf : other.wf = true := hl other (List.mem_cons_self _ _)
      have hrwf : ∀ c ∈ rest, c.wf = true := fun c hc => hl c (List.mem_cons_of_mem _ hc)
      have hgap : ∀ c ∈ rest, other.stop < c.start := (List.pairwise_cons.mp hp).1
      have hrp : List.Pairwise chunkGap rest := (List.pairwise_cons.mp hp).2
      have hcss : chunk.start ≤ chunk.stop := DiskChunk.start_le_stop hwf
      have hoss : other.start ≤ other.stop := DiskChunk.start_le_stop howf
      by_cases hbr : chunk.stop < other.start
      · rw [insertLoop_stopped rest i ia₀ hbr]
        refine insertLoopOut_after _ i ia₀ hl hp ?_
        intro c hc
        rcases List.mem_cons.mp hc with rfl | hc
        · exact hbr
        · have := hgap c hc
          omega
      · by_cases hii : chunk.intersects other = true
        · by_cases hinc : other.includedIn chunk = true
          · have hio := DiskChunk.includedIn_iff.mp hinc
            have hia : (if other.start < chunk.start then i + 1 else i) = i :=
              if_neg (by omega)
            rw [insertLoop_delete rest i ia₀ hbr hii hinc, hia]
            exact insertLoopOut_delete_lift (IH i i hrwf hrp)
          · have hninc : other.includedIn chunk = false := by simpa using hinc
            have hm2 : max chunk.start other.start ≤ min chunk.stop other.stop :=
              DiskChunk.intersects_iff.mp hii
            have hsym : other.intersects chunk = true :=
              DiskChunk.intersects_iff.mpr (by omega)
            have hni' : ¬ (chunk.start ≤ other.start ∧ other.stop ≤ chunk.stop) := by
              intro hcon
              have h := DiskChunk.includedIn_iff.mpr hcon
              rw [h] at hninc
              simp at hninc
            rw [insertLoop_cut rest i ia₀ hbr hii hninc]
            have hcuteq := DiskChunk.cut_eq hsym
            by_cases hR : chunk.stop < other.stop
            · have hrest_gt : ∀ c ∈ rest, chunk.stop < c.start := by
                intro c hc
                have := hgap c hc
                omega
              set c₂ := other.slice (chunk.stop + 1) other.stop with hc₂
              have h2w : c₂.wf = true :=
                DiskChunk.slice_wf howf (by omega) (by omega) (by omega)
              have h2s : c₂.start = chunk.stop + 1 := DiskChunk.slice_start _ _ _
              have h2t : c₂.stop = other.stop :=
                DiskChunk.slice_stop howf (by omega) (by omega) (by omega)
              have h2d := DiskChunk.slice_isDiscard other (chunk.stop + 1) other.stop
              by_cases hA : other.start < chunk.start
              · set c₁ := other.slice other.start (chunk.start - 1) with hc₁
                have h1w : c₁.wf = true :=
                  DiskChunk.slice_wf howf (le_refl _) (by omega) (by omega)
                have h1s : c₁.start = other.start := DiskChunk.slice_start _ _ _
                have h1t : c₁.stop = chunk.start - 1 :=
                  DiskChunk.slice_stop howf (le_refl _) (by omega) (by omega)
                have h1d := DiskChunk.slice_isDiscard other other.start (chunk.start - 1)
                have hcut : other.cut chunk = [c₁, c₂] := by
                  rw [hcuteq, if_pos hA, if_pos hR]
                  simp
                rw [hcut]
                rw [insertLoop_of_forall_gt rest _ _ hrest_gt]
                rw [if_pos hA]
                exact insertLoopOut_two hcss hrwf hrp hgap h1w h1s h1t h1d
                  h2w h2s h2t h2d hA hrest_gt
              · have hcut : other.cut chunk = [c₂] := by
                  rw [hcuteq, if_neg hA, if_pos hR]
                  simp
                rw [hcut]
                rw [insertLoop_of_forall_gt rest _ _ hrest_gt]
                rw [if_neg hA]
                exact insertLoopOut_one hcss hrwf hrp hgap h2w h2s h2t h2d hrest_gt
            · have hA : other.start < chunk.start := by
                rcases Nat.lt_or_ge other.start chunk.start with h | h
                · exact h
                · exact absurd ⟨h, by omega⟩ hni'
              set c₁ := other.slice other.start (chunk.start - 1) with hc₁
              have h1w : c₁.wf = true :=
                DiskChunk.slice_wf howf (le_refl _) (by omega) (by omega)
              have h1s : c₁.start = other.start := DiskChunk.slice_start _ _ _
              have h1t : c₁.stop = chunk.start - 1 :=
                DiskChunk.slice_stop howf (le_refl _) (by omega) (by omega)
              have h1d := DiskChunk.slice_isDiscard other other.start (chunk.start - 1)
              have hcut : other.cut chunk = [c₁] := by
                rw [hcuteq, if_pos hA, if_neg hR]
                simp
              rw [hcut]
              rw [if_pos hA]
              have hlen : i + [c₁].length = i + 1 := by simp
              rw [hlen]
              have ih := IH (i + 1) (i + 1) hrwf hrp
              refine insertLoopOut_cons_lift h1w h1s (by omega) ?_
                ⟨other, List.mem_cons_self _ _, h1d⟩ ih
              intro c hc
              have hlow := ih.2.2.2.2.1 chunk.start ?_ (le_refl _) c hc
              · omega
              · intro c' hc'
                have := hgap c' hc'
                omega
        · have hif : chunk.intersects other = false := by simpa using hii
          have hni : ¬ (max chunk.start other.start ≤ min chunk.stop other.stop) := by
            intro hcon
            have h := DiskChunk.intersects_iff.mpr hcon
            rw [h] at hif
            simp at hif
          have hoe : other.stop < chunk.start := by omega
          rw [insertLoop_skip rest i ia₀ hbr hif]
          have hiaeq : (if other.start < chunk.start then i + 1 else i) = i + 1 :=
            if_pos (by omega)
          rw [hiaeq]
          have ih := IH (i + 1) (i + 1) hrwf hrp
          refine insertLoopOut_cons_lift howf rfl hoe ?_
            ⟨other, List.mem_cons_self _ _, rfl⟩ ih
          intro c hc
          have hlow := ih.2.2.2.2.1 (other.stop + 1) ?_ (by omega) c hc
          · omega
          · intro c' hc'
            have := hgap c' hc'
            omega

/-- Membership-aware monotonicity of `Pairwise`. -/
theorem pairwise_imp_mem {α : Type} {R S : α → α → Prop} :
    ∀ {l : List α}, (∀ a ∈ l, ∀ b ∈ l, R a b → S a b) → List.Pairwise R l →
      List.Pairwise S l := by
  intro l
  induction l with
  | nil => intro _ _; exact List.Pairwise.nil
  | cons x xs ih =>
      intro h hp
      rcases List.pairwise_cons.mp hp with ⟨hx, hxs⟩
      refine List.pairwise_cons.mpr ⟨?_, ?_⟩
      · intro b hb
        exact h x (List.mem_cons_self _ _) b (List.mem_cons_of_mem _ hb) (hx b hb)
      · exact ih (fun a ha b hb => h a (List.mem_cons_of_mem _ ha) b (List.mem_cons_of_mem _ hb)) hxs

/-- A well-formed chunk placed between a gap-sorted context whose left
part ends before it and whose right part starts after it yields a
gap-sorted well-formed store. -/
theorem storeInv_concat {pre post : List DiskChunk} {chunk : DiskChunk}
    (hwf : chunk.wf = true)
    (hw : ∀ c ∈ pre ++ post, c.wf = true)
    (hp : List.Pairwise chunkGap (pre ++ post))
    (hpre : ∀ c ∈ pre, c.stop < chunk.start)
    (hpost : ∀ c ∈ post, chunk.stop < c.start) :
    storeInv (pre ++ chunk :: post) := by
  constructor
  · intro c hc
    rcases List.mem_append.mp hc with hc | hc
    · exact hw c (List.mem_append.mpr (Or.inl hc))
    rcases List.mem_cons.mp hc with rfl | hc
    · exact hwf
    · exact hw c (List.mem_append.mpr (Or.inr hc))
  · rcases List.pairwise_append.mp hp with ⟨hp1, hp2, hcross⟩
    refine List.pairwise_append.mpr ⟨hp1, ?_, ?_⟩
    · refine List.pairwise_cons.mpr ⟨?_, hp2⟩
      intro c hc
      exact hpost c hc
    · intro a ha b hb
      rcases List.mem_cons.mp hb with rfl | hb
      · have := hpre a ha
        have := DiskChunk.start_le_stop hwf
        unfold chunkGap
        omega
      · exact hcross a ha b hb

/-- Structure of the store after `_insertDiskChunk(chunk, true)` on a
well-formed store: the chunk sits between a left context ending before
it and a right context starting after it, both made of well-formed
gap-sorted entries of the same variants as original entries. -/
theorem insertDiskChunk_true_store (d : Disk) (chunk : DiskChunk)
    (hwf : chunk.wf = true) (hinv : storeInv d.knownChunks) :
    ∃ pre post : List DiskChunk,
      (d._insertDiskChunk chunk true).knownChunks = pre ++ chunk :: post ∧
      (∀ c ∈ pre ++ post, c.wf = true) ∧
      List.Pairwise chunkGap (pre ++ post) ∧
      (∀ c ∈ pre, c.stop < chunk.start) ∧
      (∀ c ∈ post, chunk.stop < c.start) ∧
      (∀ c ∈ pre ++ post, ∃ c₀ ∈ d.knownChunks, c.isDiscard = c₀.isDiscard) := by
  obtain ⟨o1, o2, o3, o4, o5, o6⟩ :=
    insertLoop_spec hwf d.knownChunks 0 0 hinv.1 hinv.2
  refine ⟨(insertDiskChunkLoop chunk d.knownChunks 0 0).1.take
      (insertDiskChunkLoop chunk d.knownChunks 0 0).2,
    (insertDiskChunkLoop chunk d.knownChunks 0 0).1.drop
      (insertDiskChunkLoop chunk d.knownChunks 0 0).2, ?_, ?_, ?_, ?_, ?_, ?_⟩
  · simp [Disk._insertDiskChunk, spliceInsert]
  · rw [List.take_append_drop]
    exact o1
  · rw [List.take_append_drop]
    exact o2
  · rcases o6 with ⟨e1, _, _⟩ | ⟨_, _, g3, _⟩
    · rw [e1]
      simp
    · have h0 : (insertDiskChunkLoop chunk d.knownChunks 0 0).2 - 0 =
        (insertDiskChunkLoop chunk d.knownChunks 0 0).2 := by omega
      rw [h0] at g3
      exact g3
  · rcases o6 with ⟨e1, e2, e3⟩ | ⟨_, _, _, g4⟩
    · rw [e1, List.drop_zero, e2]
      exact e3
    · have h0 : (insertDiskChunkLoop chunk d.knownChunks 0 0).2 - 0 =
        (insertDiskChunkLoop chunk d.knownChunks 0 0).2 := by omega
      rw [h0] at g4
      exact g4
  · rw [List.take_append_drop]
    exact o4

/-- Structure of the store after `_insertDiskChunk(chunk, false)` on a
well-formed store: well-formed, gap-sorted, every entry disjoint from
the probe chunk, variants preserved. -/
theorem insertDiskChunk_false_store (d : Disk) (chunk : DiskChunk)
    (hwf : chunk.wf = true) (hinv : storeInv d.knownChunks) :
    (∀ c ∈ (d._insertDiskChunk chunk false).knownChunks, c.wf = true) ∧
    List.Pairwise chunkGap (d._insertDiskChunk chunk false).knownChunks ∧
    (∀ c ∈ (d._insertDiskChunk chunk false).knownChunks,
      c.stop < chunk.start ∨ chunk.stop < c.start) ∧
    (∀ c ∈ (d._insertDiskChunk chunk false).knownChunks,
      ∃ c₀ ∈ d.knownChunks, c.isDiscard = c₀.isDiscard) := by
  obtain ⟨o1, o2, o3, o4, _, _⟩ :=
    insertLoop_spec hwf d.knownChunks 0 0 hinv.1 hinv.2
  exact ⟨o1, o2, o3, o4⟩

/-- The chunk-store invariant is preserved by `_insertDiskChunk`, for
both values of the `insert` flag. -/
theorem insertDiskChunk_storeInv (d : Disk) (chunk : DiskChunk) (insert : Bool)
    (hwf : chunk.wf = true) (hinv : storeInv d.knownChunks) :
    storeInv ((d._insertDiskChunk chunk insert).knownChunks) := by
  cases insert with
  | true =>
      obtain ⟨pre, post, heq, hw, hp, hpre, hpost, _⟩ :=
        insertDiskChunk_true_store d chunk hwf hinv
      rw [heq]
      exact storeInv_concat hwf hw hp hpre hpost
  | false =>
      obtain ⟨o1, o2, _, _⟩ := insertDiskChunk_false_store d chunk hwf hinv
      exact ⟨o1, o2⟩

/-- Gap-sortedness of a well-formed store yields strict sorting by start
and pairwise non-overlap of closed intervals. -/
theorem storeInv_sorted_disjoint {l : List DiskChunk} (h : storeInv l) :
    List.Pairwise (fun a b => a.start < b.start) l ∧
    List.Pairwise (fun a b => a.stop < b.start ∨ b.stop < a.start) l := by
  obtain ⟨hw, hp⟩ := h
  constructor
  · refine pairwise_imp_mem ?_ hp
    intro a ha b _ hr
    have := DiskChunk.start_le_stop (hw a ha)
    unfold chunkGap at hr
    omega
  · refine pairwise_imp_mem ?_ hp
    intro a _ b _ hr
    exact Or.inl hr

/-- C2: for every chunk store satisfying the sorted non-overlap
invariant and every well-formed chunk (in JS integers, `start ≤ end`),
`_insertDiskChunk(chunk, insert)` restores both invariants after it
returns, for both `insert = true` and `insert = false`: the store is
again well-formed and gap-sorted, hence sorted strictly ascending by
`start` with pairwise non-overlapping entries. -/
theorem insertDiskChunk_restores_invariants (d : Disk) (chunk : DiskChunk) (insert : Bool)
    (hinv : storeInv d.knownChunks) (hwf : chunk.wf = true) :
    storeInv ((d._insertDiskChunk chunk insert).knownChunks) ∧
    List.Pairwise (fun a b => a.start < b.start)
      ((d._insertDiskChunk chunk insert).knownChunks) ∧
    List.Pairwise (fun a b => a.stop < b.start ∨ b.stop < a.start)
      ((d._insertDiskChunk chunk insert).knownChunks) := by
  have h := insertDiskChunk_storeInv d chunk insert hwf hinv
  exact ⟨h, (storeInv_sorted_disjoint h).1, (storeInv_sorted_disjoint h).2⟩

/-- Witness for C2 at a concrete overlapping insertion. -/
theorem insertDiskChunk_restores_invariants_witness :
    storeInv (((Disk.mk false true false true
        [DiskChunk.bufferChunk [1, 2] 0, DiskChunk.discardChunk 10 5] none)._insertDiskChunk
        (DiskChunk.discardChunk 1 11) true).knownChunks) ∧
    List.Pairwise (fun a b => a.start < b.start)
      (((Disk.mk false true false true
        [DiskChunk.bufferChunk [1, 2] 0, DiskChunk.discardChunk 10 5] none)._insertDiskChunk
        (DiskChunk.discardChunk 1 11) true).knownChunks) ∧
    List.Pairwise (fun a b => a.stop < b.start ∨ b.stop < a.start)
      (((Disk.mk false true false true
        [DiskChunk.bufferChunk [1, 2] 0, DiskChunk.discardChunk 10 5] none)._insertDiskChunk
        (DiskChunk.discardChunk 1 11) true).knownChunks) :=
  insertDiskChunk_restores_invariants _ _ true (by decide) (by decide)

/-- C3: on a fresh device with record-writes enabled, `discard(5, 10)`
(covering `[5,14]`) followed by writing the two bytes "YY" at device
offset 6 leaves exactly a Discard chunk `[5,5]`, a Data chunk `[6,7]`
holding "YY" and a Discard chunk `[8,14]`; and in general (record-writes
enabled or disabled, the latter via the `insert=false` clipping probe) a
write leaves every surviving discard record disjoint from the written
range `[fileOffset, fileOffset + len - 1]`. -/
theorem write_clips_discards (d : Disk) (buffer : Bytes)
    (bufferOffset len fileOffset : Nat) (c : DiskChunk)
    (hinv : storeInv d.knownChunks) (hlen : 1 ≤ len)
    (hbuf : d.recordWrites = true → bufferOffset + len ≤ buffer.length)
    (hc : c ∈ (d.write buffer bufferOffset len fileOffset).knownChunks)
    (hdisc : c.isDiscard = true) :
    (((Disk.mk false true false true [] none).discard 5 10).write
        [89, 89] 0 2 6).knownChunks =
      [DiskChunk.discardChunk 5 1, DiskChunk.bufferChunk [89, 89] 6,
       DiskChunk.discardChunk 8 7] ∧
    (c.stop < fileOffset ∨ fileOffset + len - 1 < c.start) := by
  refine ⟨by decide, ?_⟩
  cases hrw : d.recordWrites with
  | true =>
      have hb := hbuf hrw
      simp only [Disk.write, hrw, if_true] at hc
      have hlenbuf : ((buffer.drop bufferOffset).take len).length = len := by
        simp [List.length_take, List.length_drop]
        omega
      have hwfc : (DiskChunk.bufferChunk ((buffer.drop bufferOffset).take len)
          fileOffset).wf = true := by
        simp [DiskChunk.wf, bne_iff_ne, hlenbuf]
        omega
      obtain ⟨pre, post, heq, _, _, hpre, hpost, _⟩ :=
        insertDiskChunk_true_store d _ hwfc hinv
      rw [heq] at hc
      have hstop : (DiskChunk.bufferChunk ((buffer.drop bufferOffset).take len)
          fileOffset).stop = fileOffset + len - 1 := by
        simp [DiskChunk.stop, hlenbuf]
      rcases List.mem_append.mp hc with hc | hc
      · have := hpre c hc
        simp only [DiskChunk.start] at this
        exact Or.inl this
      rcases List.mem_cons.mp hc with rfl | hc
      · simp [DiskChunk.isDiscard] at hdisc
      · have := hpost c hc
        rw [hstop] at this
        exact Or.inr this
  | false =>
      simp only [Disk.write, hrw, if_false] at hc
      have hwfp : (DiskChunk.discardChunk fileOffset len).wf = true := by
        simp [DiskChunk.wf, bne_iff_ne]
        omega
      obtain ⟨_, _, hdisj, _⟩ := insertDiskChunk_false_store d _ hwfp hinv
      have := hdisj c hc
      simp only [DiskChunk.start, DiskChunk.stop] at this
      exact this

/-- Witness for C3: a write on a non-recording device clips the discard
record it overlaps. -/
theorem write_clips_discards_witness :
    (((Disk.mk false true false true [] none).discard 5 10).write
        [89, 89] 0 2 6).knownChunks =
      [DiskChunk.discardChunk 5 1, DiskChunk.bufferChunk [89, 89] 6,
       DiskChunk.discardChunk 8 7] ∧
    ((DiskChunk.discardChunk 20 2).stop < 22 ∨
      22 + 1 - 1 < (DiskChunk.discardChunk 20 2).start) :=
  write_clips_discards
    (Disk.mk false false false true [DiskChunk.discardChunk 20 10] none)
    [7] 0 1 22 (DiskChunk.discardChunk 20 2)
    (by decide) (by decide) (by decide) (by decide) (by decide)

/-! Facts about the read planner. -/

theorem iisect_some {a b : Nat × Nat} {lo hi : Nat}
    (h : iisect a b = some (lo, hi)) :
    lo = max a.1 b.1 ∧ hi = min a.2 b.2 ∧ max a.1 b.1 ≤ min a.2 b.2 := by
  by_cases hcond : max a.1 b.1 ≤ min a.2 b.2
  · unfold iisect at h
    rw [if_pos hcond] at h
    simp at h
    exact ⟨h.1.symm, h.2.symm, hcond⟩
  · unfold iisect at h
    rw [if_neg hcond] at h
    simp at h

theorem iisect_of_le {a b : Nat × Nat} (h : max a.1 b.1 ≤ min a.2 b.2) :
    iisect a b = some (max a.1 b.1, min a.2 b.2) := by
  unfold iisect
  rw [if_pos h]

theorem iisect_none {a b : Nat × Nat} (h : ¬ max a.1 b.1 ≤ min a.2 b.2) :
    iisect a b = none := by
  unfold iisect
  rw [if_neg h]

/-- Properties of the per-chunk slicing function of the planner. -/
theorem planSliceFn_spec {offset stop : Nat} {c x : DiskChunk} (hwc : c.wf = true)
    (h : (match iisect (offset, stop) c.interval with
          | some (lo, hi) => some (c.slice lo hi)
          | none => none) = some x) :
    x.start = max offset c.start ∧ x.stop = min stop c.stop ∧
    max offset c.start ≤ min stop c.stop ∧ x.wf = true ∧
    iisect (offset, stop) c.interval = some (x.start, x.stop) ∧
    x = c.slice x.start x.stop := by
  cases hii : iisect (offset, stop) c.interval with
  | none =>
      rw [hii] at h
      simp at h
  | some p =>
      obtain ⟨lo, hi⟩ := p
      rw [hii] at h
      simp at h
      obtain ⟨hlo, hhi, hle⟩ := iisect_some hii
      simp [DiskChunk.interval] at hlo hhi hle
      have hb1 : c.start ≤ lo := by omega
      have hb2 : lo ≤ hi := by omega
      have hb3 : hi ≤ c.stop := by omega
      have hst : x.start = lo := by rw [← h, DiskChunk.slice_start]
      have hsp : x.stop = hi := by rw [← h, DiskChunk.slice_stop hwc hb1 hb2 hb3]
      refine ⟨by omega, by omega, by omega, ?_, ?_, ?_⟩
      · rw [← h]
        exact DiskChunk.slice_wf hwc hb1 hb2 hb3
      · rw [hst, hsp]
      · rw [hst, hsp, h]

/-- Every planned intersection slice lies inside the request, is
well-formed, and is exactly the slice of a stored chunk over the
intersection of its interval with the request. -/
theorem planIntersections_mem {chunks : List DiskChunk} {offset stop : Nat} {x : DiskChunk}
    (hw : ∀ c ∈ chunks, c.wf = true)
    (hx : x ∈ planIntersections chunks offset stop) :
    offset ≤ x.start ∧ x.start ≤ x.stop ∧ x.stop ≤ stop ∧ x.wf = true ∧
    ∃ c₀ ∈ chunks, iisect (offset, stop) c₀.interval = some (x.start, x.stop) ∧
      x = c₀.slice x.start x.stop := by
  obtain ⟨c, hc, hfc⟩ := List.mem_filterMap.mp hx
  obtain ⟨h1, h2, h3, h4, h5, h6⟩ := planSliceFn_spec (hw c hc) hfc
  exact ⟨by omega, by omega, by omega, h4, c, hc, h5, h6⟩

/-- The planned intersection slices inherit the gap-sortedness of the
store. -/
theorem planIntersections_pairwise {chunks : List DiskChunk} {offset stop : Nat}
    (hw : ∀ c ∈ chunks, c.wf = true) (hp : List.Pairwise chunkGap chunks) :
    List.Pairwise chunkGap (planIntersections chunks offset stop) := by
  unfold planIntersections
  rw [List.pairwise_filterMap]
  refine pairwise_imp_mem ?_ hp
  intro a ha b hb hgab x hx y hy
  obtain ⟨hx1, hx2, _, _, _, _⟩ := planSliceFn_spec (hw a ha) hx
  obtain ⟨hy1, hy2, _, _, _, _⟩ := planSliceFn_spec (hw b hb) hy
  unfold chunkGap at hgab ⊢
  omega

theorem coversB_cons {lo hi : Nat} {e : ReadPlanEntry} {es : List ReadPlanEntry} :
    coversB lo hi (e :: es) = true ↔
      entryStart e = lo ∧ lo ≤ entryStop e ∧ entryStop e ≤ hi ∧
      coversB (entryStop e + 1) hi es = true := by
  simp [coversB, and_assoc]

theorem coversB_nil {lo hi : Nat} : coversB lo hi [] = true ↔ lo = hi + 1 := by
  simp [coversB]

/-- Total length of a tiling plan. -/
theorem coversB_sum {p : List ReadPlanEntry} :
    ∀ {lo hi : Nat}, coversB lo hi p = true → planLength p = hi + 1 - lo := by
  induction p with
  | nil =>
      intro lo hi h
      rw [coversB_nil] at h
      simp [planLength]
      omega
  | cons e es ih =>
      intro lo hi h
      obtain ⟨h1, h2, h3, h4⟩ := coversB_cons.mp h
      have hsum := ih h4
      unfold planLength at hsum ⊢
      simp only [List.map_cons, List.sum_cons]
      rw [hsum]
      unfold entryLength
      omega

/-- Chunk entries produced by the plan loop come from its input list. -/
theorem readPlanLoop_mem_chunk :
    ∀ (cs : List DiskChunk) (offset stop : Nat) (c : DiskChunk),
      ReadPlanEntry.fromChunk c ∈ readPlanLoop stop offset cs → c ∈ cs := by
  intro cs
  induction cs with
  | nil =>
      intro offset stop c h
      unfold readPlanLoop at h
      split at h <;> simp at h
  | cons x xs ih =>
      intro offset stop c h
      unfold readPlanLoop at h
      rcases List.mem_append.mp h with h | h
      · split at h <;> simp at h
      · rcases List.mem_cons.mp h with he | h
        · simp at he
          exact he ▸ List.mem_cons_self _ _
        · exact List.mem_cons_of_mem _ (ih (x.stop + 1) stop c h)

/-- The plan loop tiles the request exactly, given in-range gap-sorted
slices. -/
theorem readPlanLoop_covers :
    ∀ (cs : List DiskChunk) (offset stop : Nat),
      offset ≤ stop + 1 →
      (∀ c ∈ cs, offset ≤ c.start ∧ c.start ≤ c.stop ∧ c.stop ≤ stop) →
      List.Pairwise chunkGap cs →
      coversB offset stop (readPlanLoop stop offset cs) = true := by
  intro cs
  induction cs with
  | nil =>
      intro offset stop h1 _ _
      unfold readPlanLoop
      by_cases h : offset ≤ stop
      · rw [if_pos h]
        rw [coversB_cons]
        refine ⟨rfl, ?_, ?_, ?_⟩
        · simpa [entryStop] using h
        · simp [entryStop]
        · rw [coversB_nil]
          simp [entryStop]
      · rw [if_neg h]
        rw [coversB_nil]
        omega
  | cons x xs ih =>
      intro offset stop h1 h2 hp
      have hx := h2 x (List.mem_cons_self _ _)
      have hxs : ∀ c ∈ xs, x.stop + 1 ≤ c.start ∧ c.start ≤ c.stop ∧ c.stop ≤ stop := by
        intro c hc
        have hg := (List.pairwise_cons.mp hp).1 c hc
        have h2c := h2 c (List.mem_cons_of_mem _ hc)
        unfold chunkGap at hg
        exact ⟨by omega, h2c.2.1, h2c.2.2⟩
      have hrec := ih (x.stop + 1) stop (by omega) hxs (List.pairwise_cons.mp hp).2
      unfold readPlanLoop
      by_cases hg : offset < x.start
      · rw [if_pos hg]
        rw [List.cons_append, List.nil_append]
        rw [coversB_cons]
        refine ⟨rfl, ?_, ?_, ?_⟩
        · simp [entryStop]
          omega
        · simp [entryStop]
          omega
        · have hs1 : entryStop (ReadPlanEntry.fromDisk offset (x.start - 1)) + 1 = x.start := by
            simp [entryStop]
            omega
          rw [hs1, coversB_cons]
          refine ⟨rfl, ?_, ?_, ?_⟩
          · simp [entryStart, entryStop]
            omega
          · simp [entryStop]
            omega
          · simpa [entryStop] using hrec
      · rw [if_neg hg]
        rw [List.nil_append]
        rw [coversB_cons]
        refine ⟨?_, ?_, ?_, ?_⟩
        · simp [entryStart]
          omega
        · simp [entryStop]
          omega
        · simp [entryStop]
          omega
        · simpa [entryStop] using hrec

/-- C1: for every requested `(offset, length)` with `length ≥ 1` and
every store satisfying the sorted non-overlap invariant, the plan of
`_createReadPlan` tiles `[offset, offset + length - 1]` exactly
(contiguous, non-overlapping, ascending), its entry lengths sum to
`length`, and every chunk entry is exactly the slice of a stored chunk
over the intersection of its interval with the request, never more. -/
theorem createReadPlan_covers (d : Disk) (offset len : Nat)
    (hlen : 1 ≤ len) (hinv : storeInv d.knownChunks) :
    coversB offset (offset + len - 1) (d._createReadPlan offset len) = true ∧
    planLength (d._createReadPlan offset len) = len ∧
    (∀ c : DiskChunk, ReadPlanEntry.fromChunk c ∈ d._createReadPlan offset len →
      ∃ c₀ ∈ d.knownChunks,
        iisect (offset, offset + len - 1) c₀.interval = some (c.start, c.stop) ∧
        c = c₀.slice c.start c.stop) := by
  set chunks := if d.discardIsZero then d.knownChunks
    else d.knownChunks.filter (fun c => !c.isDiscard) with hch
  have hcw : ∀ c ∈ chunks, c.wf = true := by
    rw [hch]
    split
    · exact hinv.1
    · intro c hc
      exact hinv.1 c (List.mem_of_mem_filter hc)
  have hcp : List.Pairwise chunkGap chunks := by
    rw [hch]
    split
    · exact hinv.2
    · exact List.Pairwise.sublist (List.filter_sublist _) hinv.2
  have hsub : ∀ c ∈ chunks, c ∈ d.knownChunks := by
    rw [hch]
    split
    · intro c hc
      exact hc
    · intro c hc
      exact List.mem_of_mem_filter hc
  have hplan : d._createReadPlan offset len =
      (if (planIntersections chunks offset (offset + len - 1)).isEmpty
       then [ReadPlanEntry.fromDisk offset (offset + len - 1)]
       else readPlanLoop (offset + len - 1) offset
         (planIntersections chunks offset (offset + len - 1))) := by
    rw [hch]
    rfl
  rw [hplan]
  by_cases hemp : (planIntersections chunks offset (offset + len - 1)).isEmpty = true
  · rw [if_pos hemp]
    refine ⟨?_, ?_, ?_⟩
    · rw [coversB_cons]
      refine ⟨rfl, ?_, ?_, ?_⟩
      · simp [entryStop]
        omega
      · simp [entryStop]
      · rw [coversB_nil]
        simp [entryStop]
    · unfold planLength entryLength
      simp [entryStart, entryStop]
      omega
    · intro c hc
      simp at hc
  · rw [if_neg hemp]
    have hcov : coversB offset (offset + len - 1)
        (readPlanLoop (offset + len - 1) offset
          (planIntersections chunks offset (offset + len - 1))) = true := by
      refine readPlanLoop_covers _ _ _ (by omega) ?_
        (planIntersections_pairwise hcw hcp)
      intro c hc
      have h := planIntersections_mem hcw hc
      exact ⟨h.1, h.2.1, h.2.2.1⟩
    refine ⟨hcov, ?_, ?_⟩
    · rw [coversB_sum hcov]
      omega
    · intro c hc
      have hcm := readPlanLoop_mem_chunk _ offset (offset + len - 1) c hc
      obtain ⟨_, _, _, _, c₀, hc₀, hi5, hi6⟩ := planIntersections_mem hcw hcm
      exact ⟨c₀, hsub c₀ hc₀, hi5, hi6⟩

/-- Witness for C1 on a store with one data chunk inside the request. -/
theorem createReadPlan_covers_witness :
    coversB 0 5 ((Disk.mk false true false true
      [DiskChunk.bufferChunk [88, 88] 3] none)._createReadPlan 0 6) = true ∧
    planLength ((Disk.mk false true false true
      [DiskChunk.bufferChunk [88, 88] 3] none)._createReadPlan 0 6) = 6 ∧
    (∃ c₀ ∈ [DiskChunk.bufferChunk [88, 88] 3],
      iisect (0, 5) c₀.interval = some (3, 4) ∧
      DiskChunk.bufferChunk [88, 88] 3 = c₀.slice 3 4) :=
  ⟨(createReadPlan_covers (Disk.mk false true false true
      [DiskChunk.bufferChunk [88, 88] 3] none) 0 6 (by decide) (by decide)).1,
   (createReadPlan_covers (Disk.mk false true false true
      [DiskChunk.bufferChunk [88, 88] 3] none) 0 6 (by decide) (by decide)).2.1,
   (createReadPlan_covers (Disk.mk false true false true
      [DiskChunk.bufferChunk [88, 88] 3] none) 0 6 (by decide) (by decide)).2.2
     (DiskChunk.bufferChunk [88, 88] 3) (by decide)⟩

/-- C6: for intersecting well-formed chunks, `cut` returns 0-2 parts
that are exactly the positions of `a` strictly outside `b` (empty
precisely when `b` fully contains `a`), the parts are well-formed, and
interval length is conserved: `len(a)` equals the summed part lengths
plus the length of the intersection. -/
theorem cut_outside_parts (a b : DiskChunk) (x : Nat)
    (ha : a.wf = true) (hb : b.wf = true) (hint : a.intersects b = true) :
    (a.cut b).length ≤ 2 ∧
    (a.cut b = [] ↔ a.includedIn b = true) ∧
    ((∃ p ∈ a.cut b, p.start ≤ x ∧ x ≤ p.stop) ↔
      (a.start ≤ x ∧ x ≤ a.stop ∧ (x < b.start ∨ b.stop < x))) ∧
    (a.stop + 1 - a.start =
      ((a.cut b).map (fun p => p.stop + 1 - p.start)).sum +
      (min a.stop b.stop + 1 - max a.start b.start)) ∧
    (∀ p ∈ a.cut b, p.wf = true) := by
  have hm := DiskChunk.intersects_iff.mp hint
  have has := DiskChunk.start_le_stop ha
  have hbs := DiskChunk.start_le_stop hb
  rw [DiskChunk.cut_eq hint]
  by_cases hA : a.start < b.start
  · have hL1 : (a.slice a.start (b.start - 1)).start = a.start := DiskChunk.slice_start _ _ _
    have hL2 : (a.slice a.start (b.start - 1)).stop = b.start - 1 :=
      DiskChunk.slice_stop ha (le_refl _) (by omega) (by omega)
    have hLw : (a.slice a.start (b.start - 1)).wf = true :=
      DiskChunk.slice_wf ha (le_refl _) (by omega) (by omega)
    by_cases hB : b.stop < a.stop
    · have hR1 : (a.slice (b.stop + 1) a.stop).start = b.stop + 1 := DiskChunk.slice_start _ _ _
      have hR2 : (a.slice (b.stop + 1) a.stop).stop = a.stop :=
        DiskChunk.slice_stop ha (by omega) (by omega) (le_refl _)
      have hRw : (a.slice (b.stop + 1) a.stop).wf = true :=
        DiskChunk.slice_wf ha (by omega) (by omega) (le_refl _)
      rw [if_pos hA, if_pos hB]
      refine ⟨by simp, ?_, ?_, ?_, ?_⟩
      · simp [DiskChunk.includedIn_iff]
        omega
      · simp [hL1, hL2, hR1, hR2]
        omega
      · simp [hL1, hL2, hR1, hR2]
        omega
      · intro p hp
        rcases List.mem_cons.mp hp with rfl | hp
        · exact hLw
        rcases List.mem_cons.mp hp with rfl | hp
        · exact hRw
        · simp at hp
    · rw [if_pos hA, if_neg hB]
      refine ⟨by simp, ?_, ?_, ?_, ?_⟩
      · simp [DiskChunk.includedIn_iff]
        omega
      · simp [hL1, hL2]
        omega
      · simp [hL1, hL2]
        omega
      · intro p hp
        rcases List.mem_cons.mp hp with rfl | hp
        · exact hLw
        · simp at hp
  · by_cases hB : b.stop < a.stop
    · have hR1 : (a.slice (b.stop + 1) a.stop).start = b.stop + 1 := DiskChunk.slice_start _ _ _
      have hR2 : (a.slice (b.stop + 1) a.stop).stop = a.stop :=
        DiskChunk.slice_stop ha (by omega) (by omega) (le_refl _)
      have hRw : (a.slice (b.stop + 1) a.stop).wf = true :=
        DiskChunk.slice_wf ha (by omega) (by omega) (le_refl _)
      rw [if_neg hA, if_pos hB]
      refine ⟨by simp, ?_, ?_, ?_, ?_⟩
      · simp [DiskChunk.includedIn_iff]
        omega
      · simp [hR1, hR2]
        omega
      · simp [hR1, hR2]
        omega
      · intro p hp
        rcases List.mem_cons.mp hp with rfl | hp
        · exact hRw
        · simp at hp
    · rw [if_neg hA, if_neg hB]
      refine ⟨by simp, ?_, ?_, ?_, ?_⟩
      · simp [DiskChunk.includedIn_iff]
        omega
      · simp
        omega
      · simp
        omega
      · intro p hp
        simp at hp

/-- Witness for C6: cutting `[2,9]` with `[4,6]` leaves `[2,3]` and
`[7,9]`, conserving length. -/
theorem cut_outside_parts_witness :
    ((DiskChunk.discardChunk 2 8).cut (DiskChunk.bufferChunk [1, 1, 1] 4)).length ≤ 2 ∧
    ((DiskChunk.discardChunk 2 8).cut (DiskChunk.bufferChunk [1, 1, 1] 4) = [] ↔
      (DiskChunk.discardChunk 2 8).includedIn (DiskChunk.bufferChunk [1, 1, 1] 4) = true) ∧
    ((∃ p ∈ (DiskChunk.discardChunk 2 8).cut (DiskChunk.bufferChunk [1, 1, 1] 4),
        p.start ≤ 8 ∧ 8 ≤ p.stop) ↔
      ((DiskChunk.discardChunk 2 8).start ≤ 8 ∧ 8 ≤ (DiskChunk.discardChunk 2 8).stop ∧
        (8 < (DiskChunk.bufferChunk [1, 1, 1] 4).start ∨
         (DiskChunk.bufferChunk [1, 1, 1] 4).stop < 8))) ∧
    ((DiskChunk.discardChunk 2 8).stop + 1 - (DiskChunk.discardChunk 2 8).start =
      (((DiskChunk.discardChunk 2 8).cut (DiskChunk.bufferChunk [1, 1, 1] 4)).map
        (fun p => p.stop + 1 - p.start)).sum +
      (min (DiskChunk.discardChunk 2 8).stop (DiskChunk.bufferChunk [1, 1, 1] 4).stop + 1 -
        max (DiskChunk.discardChunk 2 8).start (DiskChunk.bufferChunk [1, 1, 1] 4).start)) ∧
    (∀ p ∈ (DiskChunk.discardChunk 2 8).cut (DiskChunk.bufferChunk [1, 1, 1] 4),
      p.wf = true) :=
  cut_outside_parts (DiskChunk.discardChunk 2 8) (DiskChunk.bufferChunk [1, 1, 1] 4) 8
    (by decide) (by decide) (by decide)

/-- A cached capacity short-circuits every later call: the hooks are
never consulted. -/
theorem runGetCapacities_cached {E : Type} (d : Disk) (c : Nat)
    (hcap : d.capacity = some c) :
    ∀ hs : List (Except E Nat),
      runGetCapacities d hs = (hs.map (fun _ => (Except.ok c, false)), d) := by
  intro hs
  induction hs with
  | nil => rfl
  | cons h hs ih =>
      unfold runGetCapacities
      unfold Disk.getCapacity
      rw [hcap]
      simp [ih]

/-- C8: `getCapacity` caches the first successful backend query: any
later call in any sequence returns the cached value without invoking
the hook (invocation flags all false), so the hook runs at most once
after the first success; and a failed query returns the error without
touching the cache (the disk state is unchanged, capacity still unset). -/
theorem getCapacity_memoized {E : Type} (d : Disk) (c : Nat) (e : E)
    (hs : List (Except E Nat)) (hnone : d.capacity = none) :
    runGetCapacities d (Except.ok c :: hs) =
      ((Except.ok c, true) :: hs.map (fun _ => (Except.ok c, false)),
       { d with capacity := some c }) ∧
    d.getCapacity (Except.error e) = (Except.error e, d, true) := by
  constructor
  · unfold runGetCapacities
    unfold Disk.getCapacity
    rw [hnone]
    have hrc := runGetCapacities_cached (E := E) { d with capacity := some c } c rfl hs
    simp [hrc]
  · unfold Disk.getCapacity
    rw [hnone]

/-- Witness for C8 on a concrete call sequence. -/
theorem getCapacity_memoized_witness :
    runGetCapacities (Disk.mk false false false true [] none)
      (Except.ok 42 :: [Except.error 9, Except.ok 5]) =
      ((Except.ok 42, true) ::
        [Except.error 9, Except.ok 5].map (fun _ => ((Except.ok 42 : Except Nat Nat), false)),
       { Disk.mk false false false true [] none with capacity := some 42 }) ∧
    (Disk.mk false false false true [] none).getCapacity (Except.error 9) =
      (Except.error 9, Disk.mk false false false true [] none, true) :=
  getCapacity_memoized (Disk.mk false false false true [] none) 42 9
    [Except.error 9, Except.ok 5] rfl

/-! Step equations of the plan executor. -/

theorem readPlanGo_nil {E : Type} (bknd : Nat → Nat → Except E Bytes)
    (d : Disk) (buf : Bytes) (off : Nat) :
    readPlanGo bknd d buf off [] = ([], .ok (off, buf, d)) := rfl

theorem readPlanGo_chunk {E : Type} (bknd : Nat → Nat → Except E Bytes)
    (d : Disk) (buf : Bytes) (off : Nat) (c : DiskChunk) (rest : List ReadPlanEntry) :
    readPlanGo bknd d buf off (.fromChunk c :: rest) =
      (TraceEv.copyChunk c ::
        (readPlanGo bknd d (blit buf off (c.data.take (min c.data.length (buf.length - off))))
          (off + min c.data.length (buf.length - off)) rest).1,
       (readPlanGo bknd d (blit buf off (c.data.take (min c.data.length (buf.length - off))))
          (off + min c.data.length (buf.length - off)) rest).2) := by
  simp [readPlanGo]

theorem readPlanGo_disk_err {E : Type} (bknd : Nat → Nat → Except E Bytes)
    (d : Disk) (buf : Bytes) (off a b : Nat) (rest : List ReadPlanEntry) (e : E)
    (h : bknd a (b - a + 1) = .error e) :
    readPlanGo bknd d buf off (.fromDisk a b :: rest) =
      ([TraceEv.readStart a b], .error e) := by
  simp [readPlanGo, h]

theorem readPlanGo_disk_ok {E : Type} (bknd : Nat → Nat → Except E Bytes)
    (d : Disk) (buf : Bytes) (off a b : Nat) (rest : List ReadPlanEntry) (bytes : Bytes)
    (h : bknd a (b - a + 1) = .ok bytes) :
    readPlanGo bknd d buf off (.fromDisk a b :: rest) =
      (TraceEv.readStart a b :: TraceEv.readDone a b ::
        (readPlanGo bknd
          (if d.recordReads
            then d._insertDiskChunk
              (.bufferChunk (((blit buf off bytes).drop off).take (b - a + 1)) a) true
            else d)
          (blit buf off bytes) (off + (b - a + 1)) rest).1,
       (readPlanGo bknd
          (if d.recordReads
            then d._insertDiskChunk
              (.bufferChunk (((blit buf off bytes).drop off).take (b - a + 1)) a) true
            else d)
          (blit buf off bytes) (off + (b - a + 1)) rest).2) := by
  simp [readPlanGo, h]

/-- Composition: a successfully executed prefix determines the state the
remainder of the plan runs from. -/
theorem readPlanGo_append_ok {E : Type} (bknd : Nat → Nat → Except E Bytes) :
    ∀ (pre : List ReadPlanEntry) (d : Disk) (buf : Bytes) (off : Nat)
      (tr : List TraceEv) (off₁ : Nat) (buf₁ : Bytes) (d₁ : Disk)
      (rest : List ReadPlanEntry),
      readPlanGo bknd d buf off pre = (tr, .ok (off₁, buf₁, d₁)) →
      readPlanGo bknd d buf off (pre ++ rest) =
        (tr ++ (readPlanGo bknd d₁ buf₁ off₁ rest).1,
         (readPlanGo bknd d₁ buf₁ off₁ rest).2) := by
  intro pre
  induction pre with
  | nil =>
      intro d buf off tr off₁ buf₁ d₁ rest h
      rw [readPlanGo_nil] at h
      injection h with h1 h2
      injection h2 with h3
      injection h3 with h4 h5
      injection h5 with h6 h7
      subst h1
      subst h4
      subst h6
      subst h7
      simp
  | cons e pre ih =>
      intro d buf off tr off₁ buf₁ d₁ rest h
      cases e with
      | fromChunk c =>
          rw [readPlanGo_chunk] at h
          injection h with h1 h2
          subst h1
          have hpre : readPlanGo bknd d
              (blit buf off (c.data.take (min c.data.length (buf.length - off))))
              (off + min c.data.length (buf.length - off)) pre =
              ((readPlanGo bknd d
                (blit buf off (c.data.take (min c.data.length (buf.length - off))))
                (off + min c.data.length (buf.length - off)) pre).1,
               .ok (off₁, buf₁, d₁)) := by
            rw [← h2]
          have hrec := ih _ _ _ _ _ _ _ rest hpre
          rw [List.cons_append, readPlanGo_chunk, hrec]
          simp
      | fromDisk a b =>
          cases hbk : bknd a (b - a + 1) with
          | error e =>
              rw [readPlanGo_disk_err _ _ _ _ _ _ _ _ hbk] at h
              injection h with h1 h2
              simp at h2
          | ok bytes =>
              rw [readPlanGo_disk_ok _ _ _ _ _ _ _ _ hbk] at h
              injection h with h1 h2
              subst h1
              have hpre : readPlanGo bknd
                  (if d.recordReads
                    then d._insertDiskChunk
                      (.bufferChunk (((blit buf off bytes).drop off).take (b - a + 1)) a) true
                    else d)
                  (blit buf off bytes) (off + (b - a + 1)) pre =
                  ((readPlanGo bknd
                    (if d.recordReads
                      then d._insertDiskChunk
                        (.bufferChunk (((blit buf off bytes).drop off).take (b - a + 1)) a) true
                      else d)
                    (blit buf off bytes) (off + (b - a + 1)) pre).1,
                   .ok (off₁, buf₁, d₁)) := by
                rw [← h2]
              have hrec := ih _ _ _ _ _ _ _ rest hpre
              rw [List.cons_append, readPlanGo_disk_ok _ _ _ _ _ _ _ _ hbk, hrec]
              simp

/-- C7: when a backend read of a plan entry fails, execution of the
remaining plan entries is aborted immediately (the trace ends at the
failed read, independently of the remaining entries) and the backend's
error value is returned to the caller unmodified; no partial success
result is delivered. -/
theorem readPlan_error_aborts {E : Type} (bknd : Nat → Nat → Except E Bytes)
    (d : Disk) (buf : Bytes) (pre rest : List ReadPlanEntry) (a b : Nat) (e : E)
    (tr : List TraceEv) (off₁ : Nat) (buf₁ : Bytes) (d₁ : Disk)
    (hpre : readPlanGo bknd d buf 0 pre = (tr, .ok (off₁, buf₁, d₁)))
    (herr : bknd a (b - a + 1) = .error e) :
    (d._readAccordingToPlan bknd buf (pre ++ .fromDisk a b :: rest)).2 = .error e ∧
    (d._readAccordingToPlan bknd buf (pre ++ .fromDisk a b :: rest)).1 =
      tr ++ [TraceEv.readStart a b] := by
  unfold Disk._readAccordingToPlan
  rw [readPlanGo_append_ok bknd pre d buf 0 tr off₁ buf₁ d₁ (.fromDisk a b :: rest) hpre]
  rw [readPlanGo_disk_err _ _ _ _ _ _ _ _ herr]
  simp

/-- Witness for C7: a failing backend aborts the plan after one issued
read and surfaces the error value itself. -/
theorem readPlan_error_aborts_witness :
    ((Disk.mk false false false true [] none)._readAccordingToPlan
      (fun _ _ => (Except.error 99 : Except Nat Bytes)) [0, 0]
      ([] ++ ReadPlanEntry.fromDisk 3 4 :: [ReadPlanEntry.fromDisk 9 9])).2 =
      Except.error 99 ∧
    ((Disk.mk false false false true [] none)._readAccordingToPlan
      (fun _ _ => (Except.error 99 : Except Nat Bytes)) [0, 0]
      ([] ++ ReadPlanEntry.fromDisk 3 4 :: [ReadPlanEntry.fromDisk 9 9])).1 =
      [] ++ [TraceEv.readStart 3 4] :=
  readPlan_error_aborts (fun _ _ => (Except.error 99 : Except Nat Bytes))
    (Disk.mk false false false true [] none) [0, 0] [] [ReadPlanEntry.fromDisk 9 9]
    3 4 99 [] 0 [0, 0] (Disk.mk false false false true [] none) rfl rfl

/-- Every executor trace is sequential: copies and adjacent
issue/completion pairs, possibly ending in one dangling issue. -/
theorem readPlanGo_seqTrace {E : Type} (bknd : Nat → Nat → Except E Bytes) :
    ∀ (plan : List ReadPlanEntry) (d : Disk) (buf : Bytes) (off : Nat),
      SeqTrace (readPlanGo bknd d buf off plan).1 := by
  intro plan
  induction plan with
  | nil =>
      intro d buf off
      rw [readPlanGo_nil]
      exact SeqTrace.nil
  | cons e rest ih =>
      intro d buf off
      cases e with
      | fromChunk c =>
          rw [readPlanGo_chunk]
          exact SeqTrace.copy _ _ (ih _ _ _)
      | fromDisk a b =>
          cases hbk : bknd a (b - a + 1) with
          | error e =>
              rw [readPlanGo_disk_err _ _ _ _ _ _ _ _ hbk]
              exact SeqTrace.dangling a b
          | ok bytes =>
              rw [readPlanGo_disk_ok _ _ _ _ _ _ _ _ hbk]
              exact SeqTrace.pair _ _ _ (ih _ _ _)

/-- In a sequential trace, every prefix has at most one more issued
read than completed reads: reads are never in flight concurrently. -/
theorem seqTrace_prefix_bound :
    ∀ {t : List TraceEv}, SeqTrace t →
      ∀ t₁ t₂ : List TraceEv, t = t₁ ++ t₂ →
        t₁.countP TraceEv.isStart ≤ t₁.countP TraceEv.isDone + 1 := by
  intro t h
  induction h with
  | nil =>
      intro t₁ t₂ he
      have h1 : t₁ = [] := (List.append_eq_nil.mp he.symm).1
      subst h1
      simp
  | dangling a b =>
      intro t₁ t₂ he
      cases t₁ with
      | nil => simp
      | cons y ys =>
          rw [List.cons_append] at he
          injection he with h1 h2
          subst h1
          have h3 : ys = [] := (List.append_eq_nil.mp h2.symm).1
          subst h3
          simp [List.countP_cons, TraceEv.isStart, TraceEv.isDone]
  | copy c t ht ih =>
      intro t₁ t₂ he
      cases t₁ with
      | nil => simp
      | cons y ys =>
          rw [List.cons_append] at he
          injection he with h1 h2
          subst h1
          have := ih ys t₂ h2
          simp [List.countP_cons, TraceEv.isStart, TraceEv.isDone]
          omega
  | pair a b t ht ih =>
      intro t₁ t₂ he
      cases t₁ with
      | nil => simp
      | cons y ys =>
          rw [List.cons_append] at he
          injection he with h1 h2
          subst h1
          cases ys with
          | nil => simp [List.countP_cons, TraceEv.isStart, TraceEv.isDone]
          | cons z zs =>
              rw [List.cons_append] at h2
              injection h2 with h3 h4
              subst h3
              have := ih zs t₂ h4
              simp [List.countP_cons, TraceEv.isStart, TraceEv.isDone]
              omega

/-- On full success the executor trace is exactly the plan trace: the
plan's entries in plan order, each backend read completing before
anything later begins. -/
theorem readPlanGo_success_trace {E : Type} (bknd : Nat → Nat → Except E Bytes) :
    ∀ (plan : List ReadPlanEntry) (d : Disk) (buf : Bytes) (off : Nat)
      (tr : List TraceEv) (off₁ : Nat) (buf₁ : Bytes) (d₁ : Disk),
      readPlanGo bknd d buf off plan = (tr, .ok (off₁, buf₁, d₁)) →
      tr = planTrace plan := by
  intro plan
  induction plan with
  | nil =>
      intro d buf off tr off₁ buf₁ d₁ h
      rw [readPlanGo_nil] at h
      injection h with h1 _
      subst h1
      rfl
  | cons e rest ih =>
      intro d buf off tr off₁ buf₁ d₁ h
      cases e with
      | fromChunk c =>
          rw [readPlanGo_chunk] at h
          injection h with h1 h2
          subst h1
          unfold planTrace
          have := ih _ _ _ _ _ _ _ (by rw [← h2])
          rw [this]
      | fromDisk a b =>
          cases hbk : bknd a (b - a + 1) with
          | error e =>
              rw [readPlanGo_disk_err _ _ _ _ _ _ _ _ hbk] at h
              injection h with h1 h2
              simp at h2
          | ok bytes =>
              rw [readPlanGo_disk_ok _ _ _ _ _ _ _ _ hbk] at h
              injection h with h1 h2
              subst h1
              unfold planTrace
              have := ih _ _ _ _ _ _ _ (by rw [← h2])
              rw [this]

/-- C9: plan execution is strictly sequential. In every prefix of the
executor's event trace at most one backend read has been issued but not
completed (a later read is never started before the previous one
completed), and on success the whole trace is the plan's entries in
plan order with each issue immediately followed by its completion. -/
theorem readPlan_sequential {E : Type} (bknd : Nat → Nat → Except E Bytes)
    (d : Disk) (buf : Bytes) (plan : List ReadPlanEntry)
    (t₁ t₂ : List TraceEv) (off₁ : Nat) (buf₁ : Bytes) (d₁ : Disk)
    (hsplit : (d._readAccordingToPlan bknd buf plan).1 = t₁ ++ t₂)
    (hok : (d._readAccordingToPlan bknd buf plan).2 = .ok (off₁, buf₁, d₁)) :
    t₁.countP TraceEv.isStart ≤ t₁.countP TraceEv.isDone + 1 ∧
    (d._readAccordingToPlan bknd buf plan).1 = planTrace plan := by
  constructor
  · exact seqTrace_prefix_bound (readPlanGo_seqTrace bknd plan d buf 0) t₁ t₂ hsplit
  · refine readPlanGo_success_trace bknd plan d buf 0 _ off₁ buf₁ d₁ ?_
    rw [← hok]
    rfl

/-- Witness for C9 on a two-read plan against a constant backend. -/
theorem readPlan_sequential_witness :
    ([TraceEv.readStart 0 1, TraceEv.readDone 0 1] : List TraceEv).countP
        TraceEv.isStart ≤
      ([TraceEv.readStart 0 1, TraceEv.readDone 0 1] : List TraceEv).countP
        TraceEv.isDone + 1 ∧
    ((Disk.mk false false false true [] none)._readAccordingToPlan
      (fun _ l => (Except.ok (List.replicate l 0) : Except Nat Bytes))
      [5, 5, 5, 5]
      [ReadPlanEntry.fromDisk 0 1, ReadPlanEntry.fromDisk 2 3]).1 =
      planTrace [ReadPlanEntry.fromDisk 0 1, ReadPlanEntry.fromDisk 2 3] :=
  readPlan_sequential
    (fun _ l => (Except.ok (List.replicate l 0) : Except Nat Bytes))
    (Disk.mk false false false true [] none) [5, 5, 5, 5]
    [ReadPlanEntry.fromDisk 0 1, ReadPlanEntry.fromDisk 2 3]
    [TraceEv.readStart 0 1, TraceEv.readDone 0 1]
    [TraceEv.readStart 2 3, TraceEv.readDone 2 3]
    4 [0, 0, 0, 0] (Disk.mk false false false true [] none)
    rfl rfl

/-! Facts about buffer copies. -/

/-- A clamped copy never changes the destination length. -/
theorem blit_length (dst : Bytes) (off : Nat) (src : Bytes) :
    (blit dst off src).length = dst.length := by
  simp [blit]
  omega

/-- A copy entirely past the end of the destination is a no-op. -/
theorem blit_oob {dst : Bytes} {off : Nat} (src : Bytes)
    (h : dst.length ≤ off) :
    blit dst off src = dst := by
  unfold blit
  rw [List.take_of_length_le h]
  have h2 : dst.length - off = 0 := by omega
  rw [h2]
  rw [List.drop_eq_nil_of_le (by omega)]
  simp

/-- A clamped copy leaves the destination untouched before the write
offset. -/
theorem blit_take (dst : Bytes) (off : Nat) (src : Bytes) :
    (blit dst off src).take off = dst.take off := by
  by_cases h : off ≤ dst.length
  · unfold blit
    have hA : (dst.take off).length = off := by
      simp
      omega
    rw [List.append_assoc, List.take_left' hA]
  · rw [blit_oob src (by omega)]

/-- A clamped copy leaves the destination untouched at and after the end
of the copied window. -/
theorem blit_drop (dst : Bytes) (off : Nat) (src : Bytes)
    (hs : src.length ≤ dst.length - off) :
    (blit dst off src).drop (off + src.length) = dst.drop (off + src.length) := by
  by_cases h : off ≤ dst.length
  · unfold blit
    have hAB : (dst.take off ++ src.take (dst.length - off)).length = off + src.length := by
      simp
      omega
    rw [List.append_assoc, ← List.append_assoc, List.drop_left' hAB]
  · rw [blit_oob src (by omega)]

/-- Success of the executor preserves the destination buffer length,
whatever the plan. -/
theorem readPlanGo_ok_length {E : Type} (bknd : Nat → Nat → Except E Bytes) :
    ∀ (plan : List ReadPlanEntry) (d : Disk) (buf : Bytes) (off : Nat)
      (tr : List TraceEv) (off₁ : Nat) (buf₁ : Bytes) (d₁ : Disk),
      readPlanGo bknd d buf off plan = (tr, .ok (off₁, buf₁, d₁)) →
      buf₁.length = buf.length := by
  intro plan
  induction plan with
  | nil =>
      intro d buf off tr off₁ buf₁ d₁ h
      rw [readPlanGo_nil] at h
      injection h with h1 h2
      injection h2 with h3
      injection h3 with h4 h5
      injection h5 with h6 h7
      rw [h6]
  | cons e rest ih =>
      intro d buf off tr off₁ buf₁ d₁ h
      cases e with
      | fromChunk c =>
          rw [readPlanGo_chunk] at h
          injection h with h1 h2
          have := ih _ _ _ _ _ _ _ (by rw [← h2])
          rw [this, blit_length]
      | fromDisk a b =>
          cases hbk : bknd a (b - a + 1) with
          | error e =>
              rw [readPlanGo_disk_err _ _ _ _ _ _ _ _ hbk] at h
              injection h with h1 h2
              simp at h2
          | ok bytes =>
              rw [readPlanGo_disk_ok _ _ _ _ _ _ _ _ hbk] at h
              injection h with h1 h2
              have := ih _ _ _ _ _ _ _ (by rw [← h2])
              rw [this, blit_length]

/-- C10: the executor clamps the bytes copied from a chunk entry to
`min(chunk data length, destination length - current offset)`, so a
chunk entry never writes past the end of the destination buffer even
when the plan covers more bytes than the buffer holds: a successful run
of any plan returns a buffer of unchanged length, the chunk step is
exactly a clamped copy, and that copy changes nothing before the write
offset nor at or past the end of the clamped window. -/
theorem readPlan_chunk_clamped {E : Type} (bknd : Nat → Nat → Except E Bytes)
    (plan : List ReadPlanEntry) (d d2 : Disk) (buf : Bytes) (off : Nat)
    (tr : List TraceEv) (off₁ : Nat) (buf₁ : Bytes) (d₁ : Disk)
    (c : DiskChunk) (rest : List ReadPlanEntry) (buf2 : Bytes) (off2 : Nat)
    (hok : readPlanGo bknd d buf off plan = (tr, .ok (off₁, buf₁, d₁))) :
    buf₁.length = buf.length ∧
    readPlanGo bknd d2 buf2 off2 (.fromChunk c :: rest) =
      (TraceEv.copyChunk c ::
        (readPlanGo bknd d2
          (blit buf2 off2 (c.data.take (min c.data.length (buf2.length - off2))))
          (off2 + min c.data.length (buf2.length - off2)) rest).1,
       (readPlanGo bknd d2
          (blit buf2 off2 (c.data.take (min c.data.length (buf2.length - off2))))
          (off2 + min c.data.length (buf2.length - off2)) rest).2) ∧
    (blit buf2 off2 (c.data.take (min c.data.length (buf2.length - off2)))).length =
      buf2.length ∧
    (blit buf2 off2 (c.data.take (min c.data.length (buf2.length - off2)))).take off2 =
      buf2.take off2 ∧
    (blit buf2 off2 (c.data.take (min c.data.length (buf2.length - off2)))).drop
        (off2 + min c.data.length (buf2.length - off2)) =
      buf2.drop (off2 + min c.data.length (buf2.length - off2)) := by
  refine ⟨readPlanGo_ok_length bknd plan d buf off tr off₁ buf₁ d₁ hok,
    readPlanGo_chunk bknd d2 buf2 off2 c rest, blit_length _ _ _, blit_take _ _ _, ?_⟩
  have hsl : (c.data.take (min c.data.length (buf2.length - off2))).length =
      min c.data.length (buf2.length - off2) := by
    simp
  have hd := blit_drop buf2 off2 (c.data.take (min c.data.length (buf2.length - off2)))
    (by rw [hsl]; exact Nat.min_le_right _ _)
  rw [hsl] at hd
  exact hd

/-- Witness for C10: a chunk longer than the remaining buffer is clamped. -/
theorem readPlan_chunk_clamped_witness :
    ([1, 2] : Bytes).length = ([9, 9] : Bytes).length ∧
    readPlanGo (fun _ _ => (Except.error 0 : Except Nat Bytes))
      (Disk.mk false false false true [] none) [9, 9] 0
      (.fromChunk (DiskChunk.bufferChunk [1, 2, 3, 4] 0) :: []) =
      (TraceEv.copyChunk (DiskChunk.bufferChunk [1, 2, 3, 4] 0) ::
        (readPlanGo (fun _ _ => (Except.error 0 : Except Nat Bytes))
          (Disk.mk false false false true [] none)
          (blit [9, 9] 0 ((DiskChunk.bufferChunk [1, 2, 3, 4] 0).data.take
            (min (DiskChunk.bufferChunk [1, 2, 3, 4] 0).data.length
              (([9, 9] : Bytes).length - 0))))
          (0 + min (DiskChunk.bufferChunk [1, 2, 3, 4] 0).data.length
            (([9, 9] : Bytes).length - 0)) []).1,
       (readPlanGo (fun _ _ => (Except.error 0 : Except Nat Bytes))
          (Disk.mk false false false true [] none)
          (blit [9, 9] 0 ((DiskChunk.bufferChunk [1, 2, 3, 4] 0).data.take
            (min (DiskChunk.bufferChunk [1, 2, 3, 4] 0).data.length
              (([9, 9] : Bytes).length - 0))))
          (0 + min (DiskChunk.bufferChunk [1, 2, 3, 4] 0).data.length
            (([9, 9] : Bytes).length - 0)) []).2) ∧
    (blit [9, 9] 0 ((DiskChunk.bufferChunk [1, 2, 3, 4] 0).data.take
      (min (DiskChunk.bufferChunk [1, 2, 3, 4] 0).data.length
        (([9, 9] : Bytes).length - 0)))).length = ([9, 9] : Bytes).length ∧
    (blit [9, 9] 0 ((DiskChunk.bufferChunk [1, 2, 3, 4] 0).data.take
      (min (DiskChunk.bufferChunk [1, 2, 3, 4] 0).data.length
        (([9, 9] : Bytes).length - 0)))).take 0 = ([9, 9] : Bytes).take 0 ∧
    (blit [9, 9] 0 ((DiskChunk.bufferChunk [1, 2, 3, 4] 0).data.take
      (min (DiskChunk.bufferChunk [1, 2, 3, 4] 0).data.length
        (([9, 9] : Bytes).length - 0)))).drop
      (0 + min (DiskChunk.bufferChunk [1, 2, 3, 4] 0).data.length
        (([9, 9] : Bytes).length - 0)) =
      ([9, 9] : Bytes).drop
        (0 + min (DiskChunk.bufferChunk [1, 2, 3, 4] 0).data.length
          (([9, 9] : Bytes).length - 0)) :=
  readPlan_chunk_clamped (fun _ _ => (Except.error 0 : Except Nat Bytes))
    [.fromChunk (DiskChunk.bufferChunk [1, 2, 3, 4] 0)]
    (Disk.mk false false false true [] none) (Disk.mk false false false true [] none)
    [9, 9] 0 [TraceEv.copyChunk (DiskChunk.bufferChunk [1, 2, 3, 4] 0)] 2 [1, 2]
    (Disk.mk false false false true [] none)
    (DiskChunk.bufferChunk [1, 2, 3, 4] 0) [] [9, 9] 0 rfl

/-- A chunk disjoint from the request is dropped by the planner's
slicing function. -/
theorem planSliceFn_eq_none {offset stop : Nat} {x : DiskChunk}
    (h : x.stop < offset ∨ stop < x.start) :
    (match iisect (offset, stop) x.interval with
     | some (lo, hi) => some (x.slice lo hi)
     | none => none) = none := by
  have hn : iisect (offset, stop) x.interval = none := by
    apply iisect_none
    simp [DiskChunk.interval]
    omega
  rw [hn]

/-- A chunk whose interval contains the whole request is sliced to
exactly the request. -/
theorem planSliceFn_eq_whole {offset stop : Nat} {c : DiskChunk}
    (h1 : c.start ≤ offset) (h2 : stop ≤ c.stop) (h3 : offset ≤ stop) :
    (match iisect (offset, stop) c.interval with
     | some (lo, hi) => some (c.slice lo hi)
     | none => none) = some (c.slice offset stop) := by
  have hle : max (offset, stop).1 c.interval.1 ≤ min (offset, stop).2 c.interval.2 := by
    simp [DiskChunk.interval]
    omega
  have hi := iisect_of_le hle
  have hmax : max (offset, stop).1 c.interval.1 = offset := by
    simp [DiskChunk.interval]
    omega
  have hmin : min (offset, stop).2 c.interval.2 = stop := by
    simp [DiskChunk.interval]
    omega
  rw [hmax, hmin] at hi
  rw [hi]

/-- The planner's intersections vanish on stores disjoint from the
request. -/
theorem planIntersections_eq_nil {chunks : List DiskChunk} {offset stop : Nat}
    (h : ∀ x ∈ chunks, x.stop < offset ∨ stop < x.start) :
    planIntersections chunks offset stop = [] := by
  unfold planIntersections
  induction chunks with
  | nil => rfl
  | cons x xs ih =>
      rw [List.filterMap_cons]
      rw [planSliceFn_eq_none (h x (List.mem_cons_self _ _))]
      exact ih (fun x hx => h x (List.mem_cons_of_mem _ hx))

/-- When the store consists of one chunk covering the whole request,
surrounded by entries disjoint from it, the plan is the single slice of
that chunk over exactly the request. -/
theorem createReadPlan_single (d : Disk) (O L : Nat) (c : DiskChunk)
    (pre post : List DiskChunk)
    (hL : 1 ≤ L)
    (hstore : d.knownChunks = pre ++ c :: post)
    (hout : ∀ x ∈ pre ++ post, x.stop < O ∨ O + L - 1 < x.start)
    (hcs : c.start ≤ O) (hce : O + L - 1 ≤ c.stop) (hcw : c.wf = true)
    (hkeep : d.discardIsZero = true ∨ c.isDiscard = false) :
    d._createReadPlan O L = [ReadPlanEntry.fromChunk (c.slice O (O + L - 1))] := by
  have hOS : O ≤ O + L - 1 := by omega
  have hsw : (c.slice O (O + L - 1)).start = O := DiskChunk.slice_start _ _ _
  have hsp : (c.slice O (O + L - 1)).stop = O + L - 1 :=
    DiskChunk.slice_stop hcw hcs hOS hce
  have hints : planIntersections
      (if d.discardIsZero then d.knownChunks
       else d.knownChunks.filter (fun x => !x.isDiscard)) O (O + L - 1) =
      [c.slice O (O + L - 1)] := by
    cases hdz : d.discardIsZero with
    | true =>
        rw [if_pos rfl, hstore]
        unfold planIntersections
        rw [List.filterMap_append, List.filterMap_cons]
        have hnil1 : List.filterMap _ pre = [] :=
          planIntersections_eq_nil (fun x hx => hout x (List.mem_append.mpr (Or.inl hx)))
        have hnil2 : List.filterMap _ post = [] :=
          planIntersections_eq_nil (fun x hx => hout x (List.mem_append.mpr (Or.inr hx)))
        rw [hnil1, planSliceFn_eq_whole hcs hce hOS, hnil2]
        rfl
    | false =>
        rw [if_neg (by simp [hdz]), hstore]
        have hcd : c.isDiscard = false := by
          rcases hkeep with h | h
          · rw [hdz] at h
            simp at h
          · exact h
        rw [List.filter_append, List.filter_cons_of_pos (by simp [hcd])]
        unfold planIntersections
        rw [List.filterMap_append, List.filterMap_cons]
        have hnil1 : List.filterMap _ (pre.filter (fun x => !x.isDiscard)) = [] :=
          planIntersections_eq_nil (fun x hx =>
            hout x (List.mem_append.mpr (Or.inl (List.mem_of_mem_filter hx))))
        have hnil2 : List.filterMap _ (post.filter (fun x => !x.isDiscard)) = [] :=
          planIntersections_eq_nil (fun x hx =>
            hout x (List.mem_append.mpr (Or.inr (List.mem_of_mem_filter hx))))
        rw [hnil1, planSliceFn_eq_whole hcs hce hOS, hnil2]
        rfl
  show (if (planIntersections
        (if d.discardIsZero then d.knownChunks
         else d.knownChunks.filter (fun x => !x.isDiscard)) O (O + L - 1)).isEmpty
      then [ReadPlanEntry.fromDisk O (O + L - 1)]
      else readPlanLoop (O + L - 1) O
        (planIntersections
          (if d.discardIsZero then d.knownChunks
           else d.knownChunks.filter (fun x => !x.isDiscard)) O (O + L - 1))) =
    [ReadPlanEntry.fromChunk (c.slice O (O + L - 1))]
  rw [hints]
  rw [if_neg (by simp)]
  unfold readPlanLoop
  rw [hsw, if_neg (by omega)]
  unfold readPlanLoop
  rw [hsp, if_neg (by omega)]
  rfl

/-- Executing a plan made of one chunk entry whose data exactly fills
the destination copies precisely the chunk's bytes. -/
theorem readPlanGo_single_chunk {E : Type} (bknd : Nat → Nat → Except E Bytes)
    (d : Disk) (dst : Bytes) (c : DiskChunk)
    (hlen : dst.length = c.data.length) :
    readPlanGo bknd d dst 0 [.fromChunk c] =
      ([TraceEv.copyChunk c], .ok (c.data.length, c.data, d)) := by
  rw [readPlanGo_chunk]
  have hL : min c.data.length (dst.length - 0) = c.data.length := by omega
  rw [hL]
  have hblit : blit dst 0 (c.data.take c.data.length) = c.data := by
    rw [List.take_length]
    unfold blit
    rw [List.take_zero, Nat.sub_zero, hlen, List.take_length, Nat.zero_add, ← hlen,
      List.drop_length]
    simp
  rw [hblit, readPlanGo_nil]
  simp

/-- C4: with write-recording enabled, writing `len ≥ 1` bytes at device
offset `O` and then reading `[O, O + len)` returns exactly the written
bytes, for every backend (the plan contains no backend read at all). -/
theorem write_read_roundtrip {E : Type} (bknd : Nat → Nat → Except E Bytes)
    (d : Disk) (buffer dst : Bytes) (bufferOffset len O : Nat)
    (hinv : storeInv d.knownChunks) (hrw : d.recordWrites = true)
    (hlen : 1 ≤ len) (hbuf : bufferOffset + len ≤ buffer.length)
    (hdst : dst.length = len) :
    ((d.write buffer bufferOffset len O).read bknd dst len O).2 =
      .ok (len, (buffer.drop bufferOffset).take len,
        d.write buffer bufferOffset len O) := by
  have hwlen : ((buffer.drop bufferOffset).take len).length = len := by
    simp
    omega
  have hcw : (DiskChunk.bufferChunk ((buffer.drop bufferOffset).take len) O).wf = true := by
    simp [DiskChunk.wf, bne_iff_ne, hwlen]
    omega
  have hcstop : (DiskChunk.bufferChunk ((buffer.drop bufferOffset).take len) O).stop =
      O + len - 1 := by
    simp [DiskChunk.stop, hwlen]
  have hw : d.write buffer bufferOffset len O =
      d._insertDiskChunk (.bufferChunk ((buffer.drop bufferOffset).take len) O) true := by
    simp [Disk.write, hrw]
  obtain ⟨pre, post, heq, _, _, hpre, hpost, _⟩ :=
    insertDiskChunk_true_store d
      (.bufferChunk ((buffer.drop bufferOffset).take len) O) hcw hinv
  have hplan : (d.write buffer bufferOffset len O)._createReadPlan O len =
      [ReadPlanEntry.fromChunk
        ((DiskChunk.bufferChunk ((buffer.drop bufferOffset).take len) O).slice
          O (O + len - 1))] := by
    refine createReadPlan_single _ O len _ pre post hlen ?_ ?_ ?_ ?_ hcw ?_
    · rw [hw]
      exact heq
    · intro x hx
      rcases List.mem_append.mp hx with hx | hx
      · have := hpre x hx
        simp only [DiskChunk.start] at this
        exact Or.inl this
      · have := hpost x hx
        rw [hcstop] at this
        exact Or.inr this
    · simp [DiskChunk.start]
    · rw [hcstop]
    · exact Or.inr rfl
  have hslice : (DiskChunk.bufferChunk ((buffer.drop bufferOffset).take len) O).slice
      O (O + len - 1) = DiskChunk.bufferChunk ((buffer.drop bufferOffset).take len) O := by
    show DiskChunk.bufferChunk
        ((((buffer.drop bufferOffset).take len).drop (O - O)).take ((O + len - 1) - O + 1)) O =
      DiskChunk.bufferChunk ((buffer.drop bufferOffset).take len) O
    have harith : (O + len - 1) - O + 1 = len := by omega
    rw [Nat.sub_self, List.drop_zero, harith,
      List.take_of_length_le (le_of_eq hwlen)]
  unfold Disk.read Disk._readAccordingToPlan
  rw [hplan, hslice]
  rw [readPlanGo_single_chunk bknd _ dst _ (by simp [DiskChunk.data, hwlen, hdst])]
  simp [DiskChunk.data, hwlen]

/-- Witness for C4: write two bytes over backend content, read them back. -/
theorem write_read_roundtrip_witness :
    (((Disk.mk false true false true [] none).write [3, 4] 0 2 10).read
      (fun _ l => (Except.ok (List.replicate l 255) : Except Nat Bytes))
      [0, 0] 2 10).2 =
      Except.ok (2, ([3, 4] : Bytes).drop 0 |>.take 2,
        (Disk.mk false true false true [] none).write [3, 4] 0 2 10) :=
  write_read_roundtrip (fun _ l => (Except.ok (List.replicate l 255) : Except Nat Bytes))
    (Disk.mk false true false true [] none) [3, 4] [0, 0] 0 2 10
    (by decide) rfl (by decide) (by decide) (by decide)

/-- C5: reading a range previously covered by a discard. With
discard-is-zero enabled the read returns all zero bytes whatever the
backend holds (no backend read is planned); with it disabled the
discard records are excluded from planning and the read returns the
backend's actual bytes for the range. -/
theorem discard_read_semantics {E : Type} (bknd : Nat → Nat → Except E Bytes)
    (d : Disk) (dst bytes : Bytes) (oD lD O N : Nat)
    (hinv : storeInv d.knownChunks)
    (hN : 1 ≤ N) (hlD : 1 ≤ lD) (h1 : oD ≤ O) (h2 : O + N - 1 ≤ oD + lD - 1)
    (hdst : dst.length = N) :
    (d.discardIsZero = true →
      ((d.discard oD lD).read bknd dst N O).2 =
        .ok (N, List.replicate N 0, d.discard oD lD)) ∧
    (d.discardIsZero = false → (∀ c ∈ d.knownChunks, c.isDiscard = true) →
      d.recordReads = false → bknd O N = .ok bytes → bytes.length = N →
      ((d.discard oD lD).read bknd dst N O).2 = .ok (N, bytes, d.discard oD lD)) := by
  have hcw : (DiskChunk.discardChunk oD lD).wf = true := by
    simp [DiskChunk.wf, bne_iff_ne]
    omega
  have harith : (O + N - 1) - O + 1 = N := by omega
  obtain ⟨pre, post, heq, hwfs, hps, hpre, hpost, hdp⟩ :=
    insertDiskChunk_true_store d (DiskChunk.discardChunk oD lD) hcw hinv
  constructor
  · intro hz
    have hplan : (d.discard oD lD)._createReadPlan O N =
        [ReadPlanEntry.fromChunk
          ((DiskChunk.discardChunk oD lD).slice O (O + N - 1))] := by
      refine createReadPlan_single _ O N _ pre post hN heq ?_ ?_ ?_ hcw (Or.inl hz)
      · intro x hx
        rcases List.mem_append.mp hx with hx | hx
        · have := hpre x hx
          simp only [DiskChunk.start] at this
          exact Or.inl (by omega)
        · have := hpost x hx
          simp only [DiskChunk.stop] at this
          exact Or.inr (by omega)
      · simp only [DiskChunk.start]
        exact h1
      · simp only [DiskChunk.stop]
        exact h2
    have hslice : (DiskChunk.discardChunk oD lD).slice O (O + N - 1) =
        DiskChunk.discardChunk O N := by
      show DiskChunk.discardChunk O ((O + N - 1) - O + 1) = DiskChunk.discardChunk O N
      rw [harith]
    have hdata : (DiskChunk.discardChunk O N).data = List.replicate N 0 := by
      show List.replicate ((O + N - 1) - O + 1) 0 = List.replicate N 0
      rw [harith]
    unfold Disk.read Disk._readAccordingToPlan
    rw [hplan, hslice]
    rw [readPlanGo_single_chunk bknd _ dst _ (by rw [hdata]; simp [hdst])]
    rw [hdata]
    simp
  · intro hz halld hrr hbk hbl
    have halld' : ∀ x ∈ (d.discard oD lD).knownChunks, x.isDiscard = true := by
      intro x hx0
      have hx : x ∈ (d._insertDiskChunk (DiskChunk.discardChunk oD lD) true).knownChunks := hx0
      rw [heq] at hx
      rcases List.mem_append.mp hx with hx | hx
      · obtain ⟨c₀, hc₀, he⟩ := hdp x (List.mem_append.mpr (Or.inl hx))
        rw [he]
        exact halld c₀ hc₀
      rcases List.mem_cons.mp hx with rfl | hx
      · rfl
      · obtain ⟨c₀, hc₀, he⟩ := hdp x (List.mem_append.mpr (Or.inr hx))
        rw [he]
        exact halld c₀ hc₀
    have hz' : (d.discard oD lD).discardIsZero = false := hz
    have hrr' : (d.discard oD lD).recordReads = false := hrr
    have hplan : (d.discard oD lD)._createReadPlan O N =
        [ReadPlanEntry.fromDisk O (O + N - 1)] := by
      show (if (planIntersections
            (if (d.discard oD lD).discardIsZero then (d.discard oD lD).knownChunks
             else (d.discard oD lD).knownChunks.filter (fun x => !x.isDiscard))
            O (O + N - 1)).isEmpty
          then [ReadPlanEntry.fromDisk O (O + N - 1)]
          else readPlanLoop (O + N - 1) O
            (planIntersections
              (if (d.discard oD lD).discardIsZero then (d.discard oD lD).knownChunks
               else (d.discard oD lD).knownChunks.filter (fun x => !x.isDiscard))
              O (O + N - 1))) =
        [ReadPlanEntry.fromDisk O (O + N - 1)]
      have hfil : (d.discard oD lD).knownChunks.filter (fun x => !x.isDiscard) = [] := by
        rw [List.filter_eq_nil_iff]
        intro x hx
        simp [halld' x hx]
      have hchunks : (if (d.discard oD lD).discardIsZero then (d.discard oD lD).knownChunks
          else (d.discard oD lD).knownChunks.filter (fun x => !x.isDiscard)) = [] := by
        rw [hz', if_neg (by simp)]
        exact hfil
      rw [hchunks]
      rfl
    have hblit : blit dst 0 bytes = bytes := by
      unfold blit
      rw [List.take_zero, Nat.sub_zero, Nat.zero_add]
      rw [hdst, ← hbl, List.take_length]
      rw [hbl, ← hdst, List.drop_length]
      simp
    have hbk' : bknd O ((O + N - 1) - O + 1) = .ok bytes := by
      rw [harith]
      exact hbk
    unfold Disk.read Disk._readAccordingToPlan
    rw [hplan, readPlanGo_disk_ok _ _ _ _ _ _ _ _ hbk']
    rw [hblit, hrr']
    simp [readPlanGo_nil, harith]

/-- Witness for C5: discard then read under both discard-is-zero modes. -/
theorem discard_read_semantics_witness :
    (((Disk.mk false false false true [] none).discard 4 6).read
      (fun _ l => (Except.ok (List.replicate l 7) : Except Nat Bytes)) [8, 8] 2 5).2 =
      Except.ok (2, List.replicate 2 0, (Disk.mk false false false true [] none).discard 4 6) ∧
    (((Disk.mk false false false false [] none).discard 4 6).read
      (fun _ l => (Except.ok (List.replicate l 7) : Except Nat Bytes)) [8, 8] 2 5).2 =
      Except.ok (2, List.replicate 2 7, (Disk.mk false false false false [] none).discard 4 6) :=
  ⟨(discard_read_semantics (fun _ l => (Except.ok (List.replicate l 7) : Except Nat Bytes))
      (Disk.mk false false false true [] none) [8, 8] (List.replicate 2 7) 4 6 5 2
      (by decide) (by decide) (by decide) (by decide) (by decide) (by decide)).1 rfl,
   (discard_read_semantics (fun _ l => (Except.ok (List.replicate l 7) : Except Nat Bytes))
      (Disk.mk false false false false [] none) [8, 8] (List.replicate 2 7) 4 6 5 2
      (by decide) (by decide) (by decide) (by decide) (by decide) (by decide)).2 rfl
     (by simp) rfl rfl (by decide)⟩
